import Mathlib

/-!
# DailyDevTasks: the task parser, the filter and the task operations of `src/app.js`

A shallow embedding of `TaskParser.parse` (src/app.js, lines 200-266) and of the
parts of the JavaScript host library it calls (`String.prototype.trim`,
`match`, `replace`, `RegExp.prototype.test`, `parseInt`, `padStart`, `Date`),
followed by `TaskFilter` (lines 286-350), the operations of `State` on the task
list (lines 170-197), `DragDropHandler.updateTaskOrder` (lines 422-434) and
`TaskActions.toggle` and `TaskActions.delete` with its undo (lines 674-741).

Strings are lists of characters.  The regular expressions of the source are
embedded one by one as leftmost, greedy matchers that return what
`String.prototype.match` returns: the matched text and the capture groups.

The ambient state read by the parser is passed explicitly in `Env`: the
configured default priority, the time value of `new Date()` and the local time
zone, given as the ECMAScript function `LocalTZA(t, isUTC)`, whose offset may
change from one instant to another (daylight saving time).  The date functions
follow the ECMAScript definitions of `Day`, `YearFromTime`, `MonthFromTime`,
`DateFromTime`, `WeekDay`, `MakeDay`, `MakeDate`, `LocalTime` and `UTC`;
`getDate`, `getDay` and `setDate` work on local time and `toISOString` writes
the UTC date, as in the host library.

The mutable object `State` is a record that each operation takes and returns;
the page, the storage and the sounds are left out.  Numbers are exact integers.
-/

namespace DailyDevTasks

/-- A JavaScript string, as the list of its characters. -/
abbrev Str := List Char

/-! ## Character classes -/

/-- The class `\d`: an ASCII decimal digit. -/
def isDigit (c : Char) : Bool := decide (48 ≤ c.toNat) && decide (c.toNat ≤ 57)

/-- The class `\w`: an ASCII letter, an ASCII digit or the underscore. -/
def isWordChar (c : Char) : Bool :=
  (decide (97 ≤ c.toNat) && decide (c.toNat ≤ 122)) ||
  (decide (65 ≤ c.toNat) && decide (c.toNat ≤ 90)) ||
  isDigit c || decide (c.toNat = 95)

/-- The class `\s`, which is also what `trim` strips: ECMAScript WhiteSpace and
LineTerminator code points. -/
def isSpace (c : Char) : Bool :=
  let n := c.toNat
  decide (n = 9) || decide (n = 10) || decide (n = 11) || decide (n = 12) || decide (n = 13) ||
  decide (n = 32) || decide (n = 160) || decide (n = 5760) ||
  (decide (8192 ≤ n) && decide (n ≤ 8202)) ||
  decide (n = 8232) || decide (n = 8233) || decide (n = 8239) || decide (n = 8287) ||
  decide (n = 12288) || decide (n = 65279)

/-- Lower-casing of one character on the ASCII letters.  `toLowerCase` is only
called by the parser on captures made of ASCII letters, and a pattern letter
under the flag `i` (without `u`) matches exactly its two ASCII case variants. -/
def lowerChar (c : Char) : Char :=
  if 65 ≤ c.toNat ∧ c.toNat ≤ 90 then Char.ofNat (c.toNat + 32) else c

/-- The method `toLowerCase` on a capture made of ASCII letters. -/
def toLowerCase (s : Str) : Str := s.map lowerChar

/-! ## String methods -/

/-- The method `trim`: strips white space from both ends. -/
def trim (s : Str) : Str := List.rdropWhile isSpace (List.dropWhile isSpace s)

/-- The call `s.replace(pat, '')` with a string pattern: the first occurrence of
`pat` in `s` is deleted; `s` is returned unchanged when there is none. -/
def replaceFirst (pat : Str) : Str → Str
  | [] => []
  | c :: cs =>
    if List.isPrefixOf pat (c :: cs) then List.drop pat.length (c :: cs)
    else c :: replaceFirst pat cs

/-- Does `s` start with the lower-case pattern `pat`, letter case ignored? -/
def startsWithCI : Str → Str → Bool
  | [], _ => true
  | _ :: _, [] => false
  | p :: ps, c :: cs => (lowerChar c == p) && startsWithCI ps cs

/-- An alternation `(a|b|...)` of lower-case literals under the flag `i`, tried
at the start of `s`: the text matched by the first alternative that matches. -/
def matchAlt : List Str → Str → Option Str
  | [], _ => none
  | a :: rest, s => if startsWithCI a s then some (List.take a.length s) else matchAlt rest s

/-! ## The parsed fields -/

/-- The object returned by `TaskParser.parse`; during the TaskParser.parse, `text` holds the
working variable `taskText`. -/
structure ParsedFields where
  text : Str
  priority : Str
  category : Str
  dueDate : Str
  dueTime : Str
deriving DecidableEq

/-- The ambient state the parser reads. -/
structure Env where
  /-- The setting `CONFIG.SETTINGS.defaultPriority`. -/
  defaultPriority : Str
  /-- The time value of `new Date()`: milliseconds since the epoch, UTC, well
  inside the range of valid time values, so that `TimeClip` is the identity. -/
  now : Int
  /-- ECMAScript `LocalTZA(t, isUTC)`: the offset of local time from UTC in
  milliseconds, at the UTC time value `t` when `isUTC` is true and at the local
  time value `t` otherwise.  It changes with `t` in a zone with daylight saving
  time. -/
  localTZA : Int → Bool → Int

/-! ## Rule 1: the priority marker -/

/-- The words of the pattern `/!(high|medium|low)/i`. -/
def priorityWords : List Str := ["high".toList, "medium".toList, "low".toList]

/-- The call `taskText.match(/!(high|medium|low)/i)`: capture group 1 of the
leftmost match, as typed (the whole match is `!` followed by it). -/
def matchPriority : Str → Option Str
  | [] => none
  | c :: cs =>
    if c = '!' then
      match matchAlt priorityWords cs with
      | some w => some w
      | none => matchPriority cs
    else matchPriority cs

/-- Lines 208-212. -/
def priorityStep (st : ParsedFields) : ParsedFields :=
  match matchPriority st.text with
  | some w =>
    { st with priority := toLowerCase w, text := trim (replaceFirst ('!' :: w) st.text) }
  | none => st

/-! ## Rule 2: the category marker -/

/-- The call `taskText.match(/#(\w+)/)`: capture group 1 of the leftmost match,
the longest run of word characters after the `#` (the whole match is `#`
followed by it). -/
def matchCategory : Str → Option Str
  | [] => none
  | c :: cs =>
    if c = '#' ∧ List.takeWhile isWordChar cs ≠ [] then some (List.takeWhile isWordChar cs)
    else matchCategory cs

/-- Lines 214-218. -/
def categoryStep (st : ParsedFields) : ParsedFields :=
  match matchCategory st.text with
  | some w => { st with category := w, text := trim (replaceFirst ('#' :: w) st.text) }
  | none => st

/-! ## Whole-word patterns -/

/-- Is the character next to a position, if any, a word character? -/
def isWordOpt : Option Char → Bool
  | none => false
  | some c => isWordChar c

/-- The assertion `\b` at a position, given the characters before and after it
(`none` at either end of the string). -/
def wordBoundary (before after : Option Char) : Bool := isWordOpt before != isWordOpt after

/-- The pattern `\b(a|b|...)\b` under the flag `i`, tried at one position of the
string: `prev` is the character before the position, `s` the text from it on.
The result is the text matched by the first alternative that fits. -/
def matchWordAt : List Str → Option Char → Str → Option Str
  | [], _, _ => none
  | a :: rest, prev, s =>
    if wordBoundary prev s.head? && startsWithCI a s &&
        wordBoundary (List.take a.length s).getLast? (List.drop a.length s).head?
    then some (List.take a.length s)
    else matchWordAt rest prev s

/-- The leftmost match of `\b(a|b|...)\b` under the flag `i` in a string, as the
text before the match, the matched text and the text after it. -/
def findWord (alts : List Str) : Option Char → Str → Option (Str × Str × Str)
  | _, [] => none
  | prev, c :: cs =>
    match matchWordAt alts prev (c :: cs) with
    | some w => some ([], w, List.drop w.length (c :: cs))
    | none => (findWord alts (some c) cs).map fun r => (c :: r.1, r.2.1, r.2.2)

/-- The call `/\b(word)\b/i.test(s)`. -/
def testWord (word : Str) (s : Str) : Bool := (findWord [word] none s).isSome

/-- The call `s.replace(/\b(word)\b/i, '')`: the leftmost match is deleted. -/
def replaceWord (word : Str) (s : Str) : Str :=
  match findWord [word] none s with
  | some r => r.1 ++ r.2.2
  | none => s

/-! ## The `Date` object -/

/-- Milliseconds in a day. -/
def msPerDay : Int := 86400000

/-- ECMAScript `Day(t)`. -/
def Day (t : Int) : Int := t / msPerDay

/-- ECMAScript `TimeWithinDay(t)`. -/
def TimeWithinDay (t : Int) : Int := t % msPerDay

/-- ECMAScript `DayFromYear(y)`: the day number of the first day of year `y`. -/
def DayFromYear (y : Int) : Int :=
  365 * (y - 1970) + (y - 1969) / 4 - (y - 1901) / 100 + (y - 1601) / 400

/-- The year that holds day number `d`: the largest `y` with `DayFromYear y ≤ d`,
found from an estimate that is off by at most one. -/
def yearOfDay (d : Int) : Int :=
  let y := 1970 + d * 400 / 146097
  if DayFromYear (y + 1) ≤ d then y + 1
  else if DayFromYear y ≤ d then y
  else y - 1

/-- ECMAScript `YearFromTime(t)`. -/
def YearFromTime (t : Int) : Int := yearOfDay (Day t)

/-- ECMAScript `InLeapYear(t)`, as 0 or 1. -/
def InLeapYear (t : Int) : Int :=
  DayFromYear (YearFromTime t + 1) - DayFromYear (YearFromTime t) - 365

/-- ECMAScript `DayWithinYear(t)`. -/
def DayWithinYear (t : Int) : Int := Day t - DayFromYear (YearFromTime t)

/-- The day within the year on which month `m` (0 to 11) starts, `leap` being 0
or 1. -/
def monthStart (m : Int) (leap : Int) : Int :=
  if m ≤ 0 then 0
  else if m = 1 then 31
  else if m = 2 then 59 + leap
  else if m = 3 then 90 + leap
  else if m = 4 then 120 + leap
  else if m = 5 then 151 + leap
  else if m = 6 then 181 + leap
  else if m = 7 then 212 + leap
  else if m = 8 then 243 + leap
  else if m = 9 then 273 + leap
  else if m = 10 then 304 + leap
  else 334 + leap

/-- The month (0 to 11) that holds day `d` of a year, `leap` being 0 or 1. -/
def monthOfDayWithinYear (d : Int) (leap : Int) : Int :=
  if d < 31 then 0
  else if d < 59 + leap then 1
  else if d < 90 + leap then 2
  else if d < 120 + leap then 3
  else if d < 151 + leap then 4
  else if d < 181 + leap then 5
  else if d < 212 + leap then 6
  else if d < 243 + leap then 7
  else if d < 273 + leap then 8
  else if d < 304 + leap then 9
  else if d < 334 + leap then 10
  else 11

/-- ECMAScript `MonthFromTime(t)`, 0 for January. -/
def MonthFromTime (t : Int) : Int := monthOfDayWithinYear (DayWithinYear t) (InLeapYear t)

/-- ECMAScript `DateFromTime(t)`: the day of the month, from 1. -/
def DateFromTime (t : Int) : Int :=
  DayWithinYear t - monthStart (MonthFromTime t) (InLeapYear t) + 1

/-- ECMAScript `WeekDay(t)`, 0 for Sunday. -/
def WeekDay (t : Int) : Int := (Day t + 4) % 7

/-- ECMAScript `MakeDay(year, month, date)`. -/
def MakeDay (year month date : Int) : Int :=
  let ym := year + month / 12
  let mn := month % 12
  DayFromYear ym + monthStart mn (DayFromYear (ym + 1) - DayFromYear ym - 365) + date - 1

/-- ECMAScript `MakeDate(day, time)`. -/
def MakeDate (day time : Int) : Int := day * msPerDay + time

/-- ECMAScript `LocalTime(t)`. -/
def LocalTime (env : Env) (t : Int) : Int := t + env.localTZA t true

/-- ECMAScript `UTC(t)`. -/
def UTC (env : Env) (t : Int) : Int := t - env.localTZA t false

/-- The method `getDate` of a `Date` with time value `tv`. -/
def getDate (env : Env) (tv : Int) : Int := DateFromTime (LocalTime env tv)

/-- The method `getDay` of a `Date` with time value `tv`. -/
def getDay (env : Env) (tv : Int) : Int := WeekDay (LocalTime env tv)

/-- The method `setDate(dt)` on a `Date` with time value `tv`: the new time
value. -/
def setDate (env : Env) (tv : Int) (dt : Int) : Int :=
  let t := LocalTime env tv
  UTC env (MakeDate (MakeDay (YearFromTime t) (MonthFromTime t) dt) (TimeWithinDay t))

/-- The decimal digits of a natural number, as `Number.prototype.toString`
writes it. -/
def natToString (n : Nat) : Str := Nat.toDigits 10 n

/-- The call `s.padStart(n, '0')`. -/
def padStart (n : Nat) (s : Str) : Str := List.replicate (n - s.length) '0' ++ s

/-- The expression `d.toISOString().split('T')[0]` for a `Date` with time value
`tv`: the UTC calendar date, `YYYY-MM-DD`, the year written with a sign and six
digits outside 0 to 9999. -/
def toISODate (tv : Int) : Str :=
  let y := YearFromTime tv
  let year : Str :=
    if 0 ≤ y ∧ y ≤ 9999 then padStart 4 (natToString y.toNat)
    else (if y < 0 then '-' else '+') :: padStart 6 (natToString y.natAbs)
  year ++ '-' :: padStart 2 (natToString (MonthFromTime tv + 1).toNat)
    ++ '-' :: padStart 2 (natToString (DateFromTime tv).toNat)

/-! ## Rule 3: the relative-day keyword -/

/-- Lines 220-229. -/
def relativeDayStep (env : Env) (st : ParsedFields) : ParsedFields :=
  let today := env.now
  if testWord "today".toList st.text then
    { st with dueDate := toISODate today, text := trim (replaceWord "today".toList st.text) }
  else if testWord "tomorrow".toList st.text then
    let tomorrow := setDate env today (getDate env today + 1)
    { st with dueDate := toISODate tomorrow,
              text := trim (replaceWord "tomorrow".toList st.text) }
  else st

/-! ## Rule 4: the time of day -/

/-- What `match` returns for `/(\d{1,2})(?::(\d{2}))?\s*(am|pm)?/i`. -/
structure TimeMatch where
  /-- The matched text, `timeMatch[0]`. -/
  whole : Str
  /-- The hour digits, `timeMatch[1]`. -/
  hours : Str
  /-- The minute digits, `timeMatch[2]`, when the group took part. -/
  minutes : Option Str
  /-- The suffix, `timeMatch[3]`, when the group took part. -/
  meridiem : Option Str
deriving DecidableEq

/-- The group `(\d{1,2})` at the start of `s`, greedy: the digits and the rest. -/
def takeHours : Str → Option (Str × Str)
  | [] => none
  | d1 :: rest =>
    if isDigit d1 then
      match rest with
      | d2 :: rest2 => if isDigit d2 then some ([d1, d2], rest2) else some ([d1], rest)
      | [] => some ([d1], [])
    else none

/-- The optional group `(?::(\d{2}))?` at the start of `s`: the minute digits
when it matches, and the rest. -/
def takeMinutes : Str → Option Str × Str
  | ':' :: a :: b :: rest =>
    if isDigit a && isDigit b then (some [a, b], rest) else (none, ':' :: a :: b :: rest)
  | s => (none, s)

/-- The time pattern tried at the start of `s`. -/
def matchTimeAt (s : Str) : Option TimeMatch :=
  match takeHours s with
  | none => none
  | some (h, r1) =>
    let (m, r2) := takeMinutes r1
    let ws := List.takeWhile isSpace r2
    let mer := matchAlt ["am".toList, "pm".toList] (List.dropWhile isSpace r2)
    some { whole := h ++ (match m with | some mm => ':' :: mm | none => []) ++ ws
                      ++ (match mer with | some x => x | none => []),
           hours := h, minutes := m, meridiem := mer }

/-- The call `taskText.match(/(\d{1,2})(?::(\d{2}))?\s*(am|pm)?/i)`: the leftmost
match. -/
def matchTime : Str → Option TimeMatch
  | [] => none
  | c :: cs =>
    match matchTimeAt (c :: cs) with
    | some m => some m
    | none => matchTime cs

/-- The call `parseInt(s)` on a run of decimal digits. -/
def parseInt (s : Str) : Nat := s.foldl (fun n d => 10 * n + (d.toNat - 48)) 0

/-- Lines 237-241: the hour in 24-hour form. -/
def adjustHours (hours : Nat) (meridiem : Option Str) : Nat :=
  match meridiem with
  | some mer =>
    let isPM := decide (toLowerCase mer = "pm".toList)
    let hours := if isPM && decide (hours < 12) then hours + 12 else hours
    if !isPM && decide (hours = 12) then 0 else hours
  | none => hours

/-- Lines 231-245. -/
def timeStep (st : ParsedFields) : ParsedFields :=
  match matchTime st.text with
  | some m =>
    let hours := adjustHours (parseInt m.hours) m.meridiem
    let minutes := match m.minutes with
      | some mm => mm
      | none => "00".toList
    { st with dueTime := padStart 2 (natToString hours) ++ ':' :: minutes,
              text := trim (replaceFirst m.whole st.text) }
  | none => st

/-! ## Rule 5: the weekday keyword -/

/-- The alternatives of the weekday pattern, in the order of the source. -/
def weekdayWords : List Str :=
  ["monday".toList, "tuesday".toList, "wednesday".toList, "thursday".toList,
   "friday".toList, "saturday".toList, "sunday".toList]

/-- The array `days` of line 249. -/
def days : List Str :=
  ["sunday".toList, "monday".toList, "tuesday".toList, "wednesday".toList,
   "thursday".toList, "friday".toList, "saturday".toList]

/-- The method `indexOf` of an array of strings: -1 when the string is absent. -/
def indexOf (x : Str) : List Str → Int
  | [] => -1
  | y :: ys => if y = x then 0 else
    let i := indexOf x ys
    if i = -1 then -1 else i + 1

/-- Line 252: `(targetDay - currentDay + 7) % 7 || 7`. -/
def daysUntil (targetDay currentDay : Int) : Int :=
  let r := Int.tmod (targetDay - currentDay + 7) 7
  if r = 0 then 7 else r

/-- Lines 247-257. -/
def weekdayStep (env : Env) (st : ParsedFields) : ParsedFields :=
  match findWord weekdayWords none st.text with
  | some r =>
    let today := env.now
    let targetDay := indexOf (toLowerCase r.2.1) days
    let currentDay := getDay env today
    let targetDate := setDate env today (getDate env today + daysUntil targetDay currentDay)
    { st with dueDate := toISODate targetDate, text := trim (replaceFirst r.2.1 st.text) }
  | none => st

/-! ## The parser -/

/-- Lines 202-206: the working variables before the first rule. -/
def initFields (env : Env) (text : Str) : ParsedFields :=
  { text := trim text, priority := env.defaultPriority, category := [], dueDate := [],
    dueTime := [] }

/-- The function `TaskParser.parse`. -/
def TaskParser.parse (env : Env) (text : Str) : ParsedFields :=
  weekdayStep env (timeStep (relativeDayStep env (categoryStep (priorityStep (initFields env text)))))

/-- The configuration of the source: `defaultPriority: 'medium'`. -/
def defaultPriority : Str := "medium".toList

/-- A sample environment: the source's default priority, the instant
2024-01-03T23:00:00Z (a Wednesday) and a zone on UTC. -/
def sampleEnv : Env :=
  { defaultPriority := defaultPriority, now := 1704322800000, localTZA := fun _ _ => 0 }

/-- A sample environment in a zone nine hours ahead of UTC all year, such as
Tokyo, at the instant 2024-01-03T23:00:00Z: 08:00 on 2024-01-04 local time. -/
def tokyoEnv : Env :=
  { defaultPriority := defaultPriority, now := 1704322800000,
    localTZA := fun _ _ => 32400000 }

/-- A sample environment in the zone of New York around the end of daylight
saving time in 2024: four hours behind UTC before 2024-11-03T06:00:00Z (02:00
local time), five hours behind from then on; a local time that occurs twice,
between 01:00 and 02:00 on that day, is taken as the earlier instant, as
ECMAScript prescribes. -/
def newYorkEnv (now : Int) : Env :=
  { defaultPriority := defaultPriority, now := now,
    localTZA := fun t isUTC =>
      if isUTC then (if t < 1730613600000 then -14400000 else -18000000)
      else (if t < 1730599200000 then -14400000 else -18000000) }

/-- The ISO form of the calendar date with day number `d` (days since the epoch). -/
def isoDateOfDay (d : Int) : Str := toISODate (d * msPerDay)

/-! ## Vocabulary of the specification -/

/-- A priority token, `!` followed by `high`, `medium` or `low` in any letter
case, stands in `s` between `pre` and `post`. -/
def PriorityTokenAt (s pre w post : Str) : Prop :=
  s = pre ++ ('!' :: w) ++ post ∧ toLowerCase w ∈ priorityWords

/-- The string holds a priority token. -/
def HasPriorityToken (s : Str) : Prop := ∃ pre w post, PriorityTokenAt s pre w post

/-- The string holds a category marker: a `#` followed by a word character. -/
def HasMarker (s : Str) : Prop := ∃ p x q, s = p ++ '#' :: x :: q ∧ isWordChar x = true

/-- One of the words `alts`, in any letter case, stands in `s` between `pre` and
`post` as a whole word: no word character touches it on either side. -/
def WholeWordAt (alts : List Str) (s pre m post : Str) : Prop :=
  s = pre ++ m ++ post ∧ toLowerCase m ∈ alts ∧
    isWordOpt pre.getLast? = false ∧ isWordOpt post.head? = false

/-- The string holds one of the words `alts` as a whole word. -/
def HasWholeWord (alts : List Str) (s : Str) : Prop := ∃ pre m post, WholeWordAt alts s pre m post

/-- A valid 24-hour time `HH:MM`. -/
def IsClockTime (s : Str) : Prop :=
  ∃ h m : Nat, h ≤ 23 ∧ m ≤ 59 ∧
    s = padStart 2 (natToString h) ++ ':' :: padStart 2 (natToString m)

/-- The hour in 24-hour form, as the specification words it: `H + 12` for `pm`
with `H < 12`, `H` for `pm` with `H ≥ 12`, 0 for `am` with `H = 12`, and `H`
otherwise. -/
def hour24 (H : Nat) (meridiem : Option Str) : Nat :=
  match meridiem with
  | none => H
  | some mer =>
    if toLowerCase mer = "pm".toList ∧ H < 12 then H + 12
    else if toLowerCase mer = "pm".toList ∧ 12 ≤ H then H
    else if toLowerCase mer = "am".toList ∧ H = 12 then 0
    else H

/-- The shape of what the time pattern captures: one or two hour digits, two
minute digits when the minutes took part, and `am` or `pm` in any letter case
when the suffix took part. -/
def TimeShape (m : TimeMatch) : Prop :=
  ((∃ d1, m.hours = [d1] ∧ isDigit d1 = true) ∨
    (∃ d1 d2, m.hours = [d1, d2] ∧ isDigit d1 = true ∧ isDigit d2 = true)) ∧
  (m.minutes = none ∨ ∃ a b, m.minutes = some [a, b] ∧ isDigit a = true ∧ isDigit b = true) ∧
  (∀ mer, m.meridiem = some mer →
    toLowerCase mer = "am".toList ∨ toLowerCase mer = "pm".toList)

/-- Two decimal digits, a colon and two decimal digits. -/
def IsTwoByTwo (s : Str) : Prop :=
  ∃ a b c d, isDigit a = true ∧ isDigit b = true ∧ isDigit c = true ∧ isDigit d = true ∧
    s = [a, b, ':', c, d]

/-- The working variables after rule 1. -/
def afterPriority (env : Env) (raw : Str) : ParsedFields := priorityStep (initFields env raw)

/-- The working variables after rule 2. -/
def afterCategory (env : Env) (raw : Str) : ParsedFields := categoryStep (afterPriority env raw)

/-- The working variables after rule 3. -/
def afterRelativeDay (env : Env) (raw : Str) : ParsedFields :=
  relativeDayStep env (afterCategory env raw)

/-- The working variables after rule 4, as rule 5 receives them. -/
def afterTime (env : Env) (raw : Str) : ParsedFields := timeStep (afterRelativeDay env raw)

/-- The instant `k` days after now at the same local wall-clock time has in UTC,
in which `toISOString` writes it, the calendar date it has in local time: the
local date of now plus `k` days. -/
def DueDateIsLocal (env : Env) (k : Int) : Prop :=
  Day (UTC env (LocalTime env env.now + k * msPerDay)) = Day (LocalTime env env.now) + k

/-- The character before a position: the last one of `pre`, or `prev` when `pre`
is empty. -/
def lastOf : Option Char → Str → Option Char
  | prev, [] => prev
  | _, c :: cs => lastOf (some c) cs

/-- Words made of lower-case ASCII letters, none of them empty. -/
def LetterWords (alts : List Str) : Prop :=
  ∀ a ∈ alts, a ≠ [] ∧ ∀ c ∈ a, 97 ≤ c.toNat ∧ c.toNat ≤ 122

/-! ## Tasks and the application state -/

/-- A task record, with the fields `TaskParser.createTask` gives it. -/
structure Task where
  id : Int
  text : Str
  done : Bool
  priority : Str
  category : Str
  dueDate : Str
  dueTime : Str
  recurring : Bool
  recurrence : Str
  createdAt : Str
  completedAt : Option Str
  order : Int
deriving DecidableEq

/-- The object `State.filters`. -/
structure Filters where
  search : Str
  current : Str
  category : Str
  priority : Str
deriving DecidableEq

/-- The record kept in `State.ui.deletedTask`: a copy of the task and its list
index. -/
structure DeletedTask where
  task : Task
  index : Int
deriving DecidableEq

/-- The parts of the object `State` that the task operations read and write:
`tasks`, `filters`, `analytics.completedToday` and `ui.deletedTask` (`none` for
`null`). -/
structure State where
  tasks : List Task
  filters : Filters
  completedToday : Nat
  deletedTask : Option DeletedTask
deriving DecidableEq

/-- Host functions that the filter calls on arbitrary strings and that are left
open: they are fixed by the host, not by the repository. -/
structure Host where
  /-- The time value of `new Date(s)` for a string `s`; `none` for an invalid
  date. -/
  dateValue : Str → Option Int
  /-- The method `String.prototype.toLowerCase` on arbitrary text. -/
  lowerCase : Str → Str

/-! ## More of the `Date` object -/

/-- ECMAScript `HourFromTime(t)`. -/
def HourFromTime (t : Int) : Int := (t / 3600000) % 24

/-- ECMAScript `MinFromTime(t)`. -/
def MinFromTime (t : Int) : Int := (t / 60000) % 60

/-- ECMAScript `SecFromTime(t)`. -/
def SecFromTime (t : Int) : Int := (t / 1000) % 60

/-- ECMAScript `msFromTime(t)`. -/
def msFromTime (t : Int) : Int := t % 1000

/-- ECMAScript `MakeTime(hour, min, sec, ms)` on integers. -/
def MakeTime (hour min sec ms : Int) : Int := hour * 3600000 + min * 60000 + sec * 1000 + ms

/-- ECMAScript `TimeClip(time)`: `none` (an invalid date) beyond 8.64e15 ms. -/
def TimeClip (time : Int) : Option Int :=
  if time.natAbs > 8640000000000000 then none else some time

/-- The method `toISOString` of a `Date` with time value `tv`. -/
def toISOString (tv : Int) : Str :=
  toISODate tv ++ 'T' :: padStart 2 (natToString (HourFromTime tv).toNat)
    ++ ':' :: padStart 2 (natToString (MinFromTime tv).toNat)
    ++ ':' :: padStart 2 (natToString (SecFromTime tv).toNat)
    ++ '.' :: padStart 3 (natToString (msFromTime tv).toNat) ++ ['Z']

/-- The method `setHours(hour, min)` on a `Date` with time value `tv`, the
arguments being numbers or `NaN` (`none`): the new time value. -/
def setHours (env : Env) (tv : Option Int) (hour min : Option Int) : Option Int :=
  match tv, hour, min with
  | some tv, some h, some m =>
    let t := LocalTime env tv
    TimeClip (UTC env (MakeDate (Day t) (MakeTime h m (SecFromTime t) (msFromTime t))))
  | _, _, _ => none

/-- The value of a digit character in radix up to 16. -/
def digitValue (c : Char) : Option Nat :=
  if 48 ≤ c.toNat ∧ c.toNat ≤ 57 then some (c.toNat - 48)
  else if 97 ≤ c.toNat ∧ c.toNat ≤ 102 then some (c.toNat - 87)
  else if 65 ≤ c.toNat ∧ c.toNat ≤ 70 then some (c.toNat - 55)
  else none

/-- Is the character a digit of radix `R`? -/
def isRadixDigit (R : Nat) (c : Char) : Bool :=
  match digitValue c with
  | some v => decide (v < R)
  | none => false

/-- The value of a run of radix-`R` digits. -/
def radixValue (R : Nat) (z : Str) : Nat := z.foldl (fun n c => R * n + (digitValue c).getD 0) 0

/-- The call `parseInt(s)` with no radix on an arbitrary argument, `none` standing
for `undefined` as argument and for `NaN` as result: leading white space and a
sign are skipped, `0x` selects radix 16, and the longest run of digits is read. -/
def parseIntAny (arg : Option Str) : Option Int :=
  match arg with
  | none => none
  | some s =>
    let s1 := List.dropWhile isSpace s
    let neg := match s1 with
      | '-' :: _ => true
      | _ => false
    let s2 := match s1 with
      | '-' :: r => r
      | '+' :: r => r
      | _ => s1
    let radix : Nat := match s2 with
      | '0' :: 'x' :: _ => 16
      | '0' :: 'X' :: _ => 16
      | _ => 10
    let s3 := match s2 with
      | '0' :: 'x' :: r => r
      | '0' :: 'X' :: r => r
      | _ => s2
    let z := List.takeWhile (isRadixDigit radix) s3
    if z = [] then none
    else some (if neg then -(radixValue radix z : Int) else (radixValue radix z : Int))

/-- The call `s.split(':')`. -/
def splitColon : Str → List Str
  | [] => [[]]
  | c :: cs =>
    if c = ':' then [] :: splitColon cs
    else match splitColon cs with
      | p :: ps => (c :: p) :: ps
      | [] => [[c]]

/-! ## The task factory and the state operations -/

/-- The function `TaskParser.createTask`; `Date.now()` and `new Date()` both read
the clock of the environment. -/
def TaskParser.createTask (env : Env) (parsed : ParsedFields) : Task :=
  { id := env.now, text := parsed.text, done := false, priority := parsed.priority,
    category := parsed.category, dueDate := parsed.dueDate, dueTime := parsed.dueTime,
    recurring := false, recurrence := [], createdAt := toISOString env.now,
    completedAt := none, order := 0 }

/-- The loop `forEach((task, index) => task.order = index)`, from index `i` on. -/
def renumberFrom : Nat → List Task → List Task
  | _, [] => []
  | i, task :: rest => { task with order := (i : Int) } :: renumberFrom (i + 1) rest

/-- The method `State.reorderTasks`. -/
def State.reorderTasks (st : State) : State := { st with tasks := renumberFrom 0 st.tasks }

/-- The method `State.addTask`: `unshift`, then `reorderTasks`. -/
def State.addTask (task : Task) (st : State) : State :=
  State.reorderTasks { st with tasks := task :: st.tasks }

/-- The method `State.removeTask`. -/
def State.removeTask (id : Int) (st : State) : State :=
  { st with tasks := st.tasks.filter fun t => decide (t.id ≠ id) }

/-- The method `State.getTask`: the first task with the id, if any. -/
def State.getTask (id : Int) (st : State) : Option Task :=
  st.tasks.find? fun t => decide (t.id = id)

/-! ## The filter -/

/-- The method `TaskFilter.isOverdue`. -/
def TaskFilter.isOverdue (env : Env) (host : Host) (task : Task) : Bool :=
  if task.dueDate = [] ∨ task.done = true then false
  else
    let now := env.now
    let due := host.dateValue task.dueDate
    let due :=
      if task.dueTime ≠ [] then
        let parts := splitColon task.dueTime
        setHours env due (parseIntAny parts[0]?) (parseIntAny parts[1]?)
      else due
    match due with
    | some d => decide (d < now)
    | none => false

/-- The method `TaskFilter.isToday`. -/
def TaskFilter.isToday (env : Env) (task : Task) : Bool :=
  if task.dueDate = [] then false
  else
    let today := toISODate env.now
    decide (task.dueDate = today)

/-- The method `TaskFilter.isThisWeek`. -/
def TaskFilter.isThisWeek (env : Env) (host : Host) (task : Task) : Bool :=
  if task.dueDate = [] then false
  else
    let now := env.now
    let due := host.dateValue task.dueDate
    let weekFromNow := TimeClip (now + 7 * 24 * 60 * 60 * 1000)
    match due, weekFromNow with
    | some d, some w => decide (d ≥ now) && decide (d ≤ w)
    | _, _ => false

/-- The call `filtered.sort((a, b) => a.order - b.order)`: a stable sort by
ascending `order`. -/
def sortByOrder (tasks : List Task) : List Task :=
  List.insertionSort (fun a b => a.order ≤ b.order) tasks

/-- The method `TaskFilter.apply`, the object `State.filters` being passed as
`filters`. -/
def TaskFilter.apply (env : Env) (host : Host) (filters : Filters) (tasks : List Task) :
    List Task :=
  let filtered := tasks
  let filtered :=
    if filters.current = "today".toList then filtered.filter (TaskFilter.isToday env)
    else if filters.current = "week".toList then filtered.filter (TaskFilter.isThisWeek env host)
    else if filters.current = "overdue".toList then
      filtered.filter (TaskFilter.isOverdue env host)
    else if filters.current = "completed".toList then filtered.filter fun t => t.done
    else filtered.filter fun t => !t.done
  let filtered :=
    if filters.category ≠ [] then filtered.filter fun t => decide (t.category = filters.category)
    else filtered
  let filtered :=
    if filters.priority ≠ [] then filtered.filter fun t => decide (t.priority = filters.priority)
    else filtered
  let filtered :=
    if filters.search ≠ [] then
      let searchLower := host.lowerCase filters.search
      filtered.filter fun t => decide (List.IsInfix searchLower (host.lowerCase t.text))
    else filtered
  sortByOrder filtered

/-! ## Reordering by drag and drop -/

/-- The method `indexOf` of an array of ids: -1 when the id is absent. -/
def indexOfId (x : Int) : List Int → Int
  | [] => -1
  | y :: ys =>
    if y = x then 0
    else
      let i := indexOfId x ys
      if i = -1 then -1 else i + 1

/-- The method `DragDropHandler.updateTaskOrder`; `newOrder` is the list of ids
read from the task elements of the page, in page order. -/
def DragDropHandler.updateTaskOrder (newOrder : List Int) (st : State) : State :=
  { st with tasks := st.tasks.map fun task =>
      let newIndex := indexOfId task.id newOrder
      if newIndex ≠ -1 then { task with order := newIndex } else task }

/-! ## Toggling and deleting -/

/-- The update in place of the object that `find` returned: the first task with
the id is replaced by its image under `f`. -/
def updateFirst (id : Int) (f : Task → Task) : List Task → List Task
  | [] => []
  | t :: ts => if t.id = id then f t :: ts else t :: updateFirst id f ts

/-- The method `TaskActions.toggle`, as far as the state goes. -/
def TaskActions.toggle (env : Env) (taskId : Int) (st : State) : State :=
  match State.getTask taskId st with
  | none => st
  | some task =>
    let done := !task.done
    let completedAt := if done then some (toISOString env.now) else none
    { st with
      tasks := updateFirst taskId (fun t => { t with done := done, completedAt := completedAt })
        st.tasks,
      completedToday := if done then st.completedToday + 1 else st.completedToday }

/-- The method `findIndex` of the task array: -1 when no task fits. -/
def findIndex (p : Task → Bool) : List Task → Int
  | [] => -1
  | t :: ts =>
    if p t then 0
    else
      let i := findIndex p ts
      if i = -1 then -1 else i + 1

/-- The method `TaskActions.delete`, as far as the state goes. -/
def TaskActions.delete (taskId : Int) (st : State) : State :=
  match State.getTask taskId st with
  | none => st
  | some task =>
    let index := findIndex (fun t => decide (t.id = taskId)) st.tasks
    State.removeTask taskId { st with deletedTask := some { task := task, index := index } }

/-- The call `tasks.splice(start, 0, item)`. -/
def splice (start : Int) (item : Task) (tasks : List Task) : List Task :=
  let len : Int := tasks.length
  let k := if start < 0 then max (len + start) 0 else min start len
  List.take k.toNat tasks ++ item :: List.drop k.toNat tasks

/-- The click on the undo button of the toast shown by `TaskActions.delete`: the
callback of lines 733-737, then `hideToast`.  The callback reads
`State.ui.deletedTask.index`, which throws when the slot is `null`: `none`. -/
def undoDelete (st : State) : Option State :=
  match st.deletedTask with
  | none => none
  | some d => some { st with tasks := splice d.index d.task st.tasks, deletedTask := none }

/-! ## Vocabulary of the specification for the task operations -/

/-- The view predicate as the specification words it. -/
def ViewHolds (env : Env) (host : Host) (view : Str) (t : Task) : Prop :=
  if view = "completed".toList then t.done = true
  else if view = "today".toList then TaskFilter.isToday env t = true
  else if view = "week".toList then TaskFilter.isThisWeek env host t = true
  else if view = "overdue".toList then TaskFilter.isOverdue env host t = true
  else t.done = false

/-- A task passes the filter specification: the view predicate and, when
non-empty, the category, priority and search filters. -/
def Shown (env : Env) (host : Host) (f : Filters) (t : Task) : Prop :=
  ViewHolds env host f.current t ∧
    (f.category ≠ [] → t.category = f.category) ∧
    (f.priority ≠ [] → t.priority = f.priority) ∧
    (f.search ≠ [] → List.IsInfix (host.lowerCase f.search) (host.lowerCase t.text))

instance instDecidableViewHolds (env : Env) (host : Host) (view : Str) (t : Task) :
    Decidable (ViewHolds env host view t) := by
  unfold ViewHolds
  infer_instance

instance instDecidableShown (env : Env) (host : Host) (f : Filters) (t : Task) :
    Decidable (Shown env host f t) := by
  unfold Shown
  infer_instance

/-- A sample task with the given id, order and `done` flag. -/
def sampleTask (id order : Int) (done : Bool) : Task :=
  { id := id, text := "task".toList, done := done, priority := "medium".toList, category := [],
    dueDate := [], dueTime := [], recurring := false, recurrence := [],
    createdAt := "2024-01-03T23:00:00.000Z".toList, completedAt := none, order := order }

/-- A sample host: no string is a valid date, lower-casing on ASCII letters. -/
def sampleHost : Host := { dateValue := fun _ => none, lowerCase := toLowerCase }

/-- The filters the application starts with: view `all`, nothing else set. -/
def defaultFilters : Filters := { search := [], current := "all".toList, category := [], priority := [] }

/-- A sample state around a task list. -/
def sampleState (tasks : List Task) : State :=
  { tasks := tasks, filters := defaultFilters, completedToday := 0, deletedTask := none }

/-! ## Facts about the `Date` model -/

theorem yearOfDay_spec (d : Int) :
    DayFromYear (yearOfDay d) ≤ d ∧ d < DayFromYear (yearOfDay d + 1) := by
  unfold yearOfDay
  simp only []
  split_ifs with h1 h2
  · refine ⟨h1, ?_⟩
    unfold DayFromYear at *
    omega
  · refine ⟨h2, ?_⟩
    omega
  · constructor
    · unfold DayFromYear at *
      omega
    · simp only [sub_add_cancel]
      omega

theorem Day_mul_msPerDay (d : Int) : Day (d * msPerDay) = d := by
  unfold Day msPerDay
  omega

theorem Day_add_days (t k : Int) : Day (t + k * msPerDay) = Day t + k := by
  unfold Day msPerDay
  omega

theorem toISODate_eq_isoDateOfDay (t : Int) : toISODate t = isoDateOfDay (Day t) := by
  have hY : YearFromTime (Day t * msPerDay) = YearFromTime t := by
    unfold YearFromTime; rw [Day_mul_msPerDay]
  have hL : InLeapYear (Day t * msPerDay) = InLeapYear t := by
    unfold InLeapYear; rw [hY]
  have hW : DayWithinYear (Day t * msPerDay) = DayWithinYear t := by
    unfold DayWithinYear; rw [hY, Day_mul_msPerDay]
  have hM : MonthFromTime (Day t * msPerDay) = MonthFromTime t := by
    unfold MonthFromTime; rw [hW, hL]
  have hD : DateFromTime (Day t * msPerDay) = DateFromTime t := by
    unfold DateFromTime; rw [hW, hM, hL]
  unfold isoDateOfDay toISODate
  rw [hY, hM, hD]

theorem monthOfDayWithinYear_range (d leap : Int) :
    0 ≤ monthOfDayWithinYear d leap ∧ monthOfDayWithinYear d leap ≤ 11 := by
  unfold monthOfDayWithinYear
  repeat (first | omega | split)

/-- Setting the day of the month to the current one plus `k` moves the local
time by `k` whole days; the new time value is the UTC instant of that local
time. -/
theorem setDate_getDate_add (env : Env) (tv k : Int) :
    setDate env tv (getDate env tv + k) = UTC env (LocalTime env tv + k * msPerDay) := by
  have hm := monthOfDayWithinYear_range (DayWithinYear (LocalTime env tv))
    (InLeapYear (LocalTime env tv))
  have h1 : MonthFromTime (LocalTime env tv) / 12 = 0 := by
    unfold MonthFromTime; omega
  have h2 : MonthFromTime (LocalTime env tv) % 12 = MonthFromTime (LocalTime env tv) := by
    unfold MonthFromTime; omega
  have h3 : Day (LocalTime env tv) * msPerDay + TimeWithinDay (LocalTime env tv)
      = LocalTime env tv := by
    unfold Day TimeWithinDay msPerDay; omega
  have h5 : MakeDate (MakeDay (YearFromTime (LocalTime env tv)) (MonthFromTime (LocalTime env tv))
      (getDate env tv + k)) (TimeWithinDay (LocalTime env tv))
      = LocalTime env tv + k * msPerDay := by
    unfold getDate MakeDay MakeDate DateFromTime
    simp only [h1, h2, add_zero]
    unfold InLeapYear DayWithinYear
    have h4 : (DayFromYear (YearFromTime (LocalTime env tv)) +
          monthStart (MonthFromTime (LocalTime env tv))
            (DayFromYear (YearFromTime (LocalTime env tv) + 1) -
              DayFromYear (YearFromTime (LocalTime env tv)) - 365) +
          (Day (LocalTime env tv) - DayFromYear (YearFromTime (LocalTime env tv)) -
            monthStart (MonthFromTime (LocalTime env tv))
              (DayFromYear (YearFromTime (LocalTime env tv) + 1) -
                DayFromYear (YearFromTime (LocalTime env tv)) - 365) + 1 + k) - 1)
        = Day (LocalTime env tv) + k := by ring
    rw [h4, add_mul, add_right_comm, h3]
  unfold setDate
  simp only []
  rw [h5]

/-- The due date written by a rule that moves `today` by `k` days, when the
due instant has the same calendar date in UTC as in local time. -/
theorem toISODate_setDate (env : Env) (k : Int) (h : DueDateIsLocal env k) :
    toISODate (setDate env env.now (getDate env env.now + k))
      = isoDateOfDay (Day (LocalTime env env.now) + k) := by
  rw [setDate_getDate_add, toISODate_eq_isoDateOfDay, h]

/-- In a zone with no offset from UTC every due instant has the same calendar
date in UTC as in local time. -/
theorem dueDateIsLocal_of_utc (env : Env) (k : Int) (h : ∀ t b, env.localTZA t b = 0) :
    DueDateIsLocal env k := by
  unfold DueDateIsLocal UTC LocalTime
  rw [h, h, add_zero, sub_zero, Day_add_days]

theorem dueDateIsLocal_sampleEnv (k : Int) : DueDateIsLocal sampleEnv k :=
  dueDateIsLocal_of_utc sampleEnv k fun _ _ => rfl

/-! ## What each rule leaves alone -/

theorem categoryStep_priority (st : ParsedFields) : (categoryStep st).priority = st.priority := by
  unfold categoryStep; split <;> rfl

theorem relativeDayStep_priority (env : Env) (st : ParsedFields) :
    (relativeDayStep env st).priority = st.priority := by
  unfold relativeDayStep; simp only []; split_ifs <;> rfl

theorem timeStep_priority (st : ParsedFields) : (timeStep st).priority = st.priority := by
  unfold timeStep; split <;> rfl

theorem weekdayStep_priority (env : Env) (st : ParsedFields) :
    (weekdayStep env st).priority = st.priority := by
  unfold weekdayStep; split <;> rfl

theorem relativeDayStep_category (env : Env) (st : ParsedFields) :
    (relativeDayStep env st).category = st.category := by
  unfold relativeDayStep; simp only []; split_ifs <;> rfl

theorem timeStep_category (st : ParsedFields) : (timeStep st).category = st.category := by
  unfold timeStep; split <;> rfl

theorem weekdayStep_category (env : Env) (st : ParsedFields) :
    (weekdayStep env st).category = st.category := by
  unfold weekdayStep; split <;> rfl

theorem weekdayStep_dueTime (env : Env) (st : ParsedFields) :
    (weekdayStep env st).dueTime = st.dueTime := by
  unfold weekdayStep; split <;> rfl

theorem timeStep_dueDate (st : ParsedFields) : (timeStep st).dueDate = st.dueDate := by
  unfold timeStep; split <;> rfl

theorem parse_priority (env : Env) (raw : Str) :
    (TaskParser.parse env raw).priority = (priorityStep (initFields env raw)).priority := by
  unfold TaskParser.parse
  rw [weekdayStep_priority, timeStep_priority, relativeDayStep_priority, categoryStep_priority]

theorem parse_category (env : Env) (raw : Str) :
    (TaskParser.parse env raw).category = (categoryStep (priorityStep (initFields env raw))).category := by
  unfold TaskParser.parse
  rw [weekdayStep_category, timeStep_category, relativeDayStep_category]

theorem parse_dueTime (env : Env) (raw : Str) :
    (TaskParser.parse env raw).dueTime
      = (timeStep (relativeDayStep env (categoryStep (priorityStep (initFields env raw))))).dueTime := by
  unfold TaskParser.parse
  rw [weekdayStep_dueTime]

/-! ## White space and `trim` -/

theorem dropWhile_append_cons_neg {p : Char → Bool} (pre : Str) (x : Char) (rest : Str)
    (hx : p x = false) :
    List.dropWhile p (pre ++ x :: rest) = List.dropWhile p pre ++ x :: rest := by
  induction pre with
  | nil => simp [List.dropWhile, hx]
  | cons c cs ih =>
    by_cases hc : p c = true
    · simp [List.dropWhile, hc, ih]
    · simp [List.dropWhile, hc]

theorem takeWhile_append_cons_neg {p : Char → Bool} (pre : Str) (x : Char) (rest : Str)
    (hx : p x = false) :
    List.takeWhile p (pre ++ x :: rest) = List.takeWhile p pre := by
  induction pre with
  | nil => simp [List.takeWhile, hx]
  | cons c cs ih =>
    by_cases hc : p c = true
    · simp [List.takeWhile, hc, ih]
    · simp [List.takeWhile, hc]

theorem rdropWhile_append_cons_neg {p : Char → Bool} (l : Str) (x : Char) (post : Str)
    (hx : p x = false) :
    List.rdropWhile p (l ++ x :: post) = l ++ x :: List.rdropWhile p post := by
  unfold List.rdropWhile
  have h : (l ++ x :: post).reverse = post.reverse ++ x :: l.reverse := by simp
  rw [h, dropWhile_append_cons_neg _ _ _ hx]
  simp

/-- Trimming a string in which a piece with non-space ends is marked out: only
the text before and after the piece is touched. -/
theorem trim_around (pre : Str) (x : Char) (mid : Str) (y : Char) (post : Str)
    (hx : isSpace x = false) (hy : isSpace y = false) :
    trim (pre ++ x :: (mid ++ y :: post))
      = List.dropWhile isSpace pre ++ x :: (mid ++ y :: List.rdropWhile isSpace post) := by
  unfold trim
  rw [dropWhile_append_cons_neg _ _ _ hx]
  have h : List.dropWhile isSpace pre ++ x :: (mid ++ y :: post)
      = (List.dropWhile isSpace pre ++ x :: mid) ++ y :: post := by simp
  rw [h, rdropWhile_append_cons_neg _ _ _ hy]
  simp

theorem trim_spaces_append (a s : Str) (ha : ∀ c ∈ a, isSpace c = true) :
    trim (a ++ s) = trim s := by
  unfold trim
  rw [List.dropWhile_append_of_pos ha]

theorem rdropWhile_append_spaces (s b : Str) (hb : ∀ c ∈ b, isSpace c = true) :
    List.rdropWhile isSpace (s ++ b) = List.rdropWhile isSpace s := by
  unfold List.rdropWhile
  rw [List.reverse_append, List.dropWhile_append_of_pos]
  intro c hc
  exact hb c (List.mem_reverse.mp hc)

theorem trim_append_spaces (s b : Str) (hb : ∀ c ∈ b, isSpace c = true) :
    trim (s ++ b) = trim s := by
  unfold trim
  by_cases hs : ∀ c ∈ s, isSpace c = true
  · have h1 : List.dropWhile isSpace (s ++ b) = [] := by
      rw [List.dropWhile_eq_nil_iff]
      intro c hc
      rcases List.mem_append.mp hc with h | h
      · exact hs c h
      · exact hb c h
    have h2 : List.dropWhile isSpace s = [] := by
      rw [List.dropWhile_eq_nil_iff]; exact hs
    rw [h1, h2]
  · push_neg at hs
    obtain ⟨c, hc, hcs⟩ := hs
    obtain ⟨l1, l2, rfl⟩ := List.append_of_mem hc
    have hcs' : isSpace c = false := by simpa using hcs
    have h : l1 ++ c :: l2 ++ b = l1 ++ c :: (l2 ++ b) := by simp
    rw [h, dropWhile_append_cons_neg _ _ _ hcs', dropWhile_append_cons_neg _ _ _ hcs']
    have h' : List.dropWhile isSpace l1 ++ c :: (l2 ++ b)
        = (List.dropWhile isSpace l1 ++ c :: l2) ++ b := by simp
    rw [h', rdropWhile_append_spaces _ _ hb]

theorem rdropWhile_append_rtakeWhile_self (p : Char → Bool) (l : Str) :
    List.rdropWhile p l ++ List.rtakeWhile p l = l := by
  unfold List.rdropWhile List.rtakeWhile
  rw [← List.reverse_append, List.takeWhile_append_dropWhile, List.reverse_reverse]

/-- A string is its trimmed form between two runs of white space. -/
theorem trim_decomp (s : Str) :
    ∃ a b, s = a ++ trim s ++ b ∧ (∀ c ∈ a, isSpace c = true) ∧ (∀ c ∈ b, isSpace c = true) := by
  refine ⟨List.takeWhile isSpace s, List.rtakeWhile isSpace (List.dropWhile isSpace s), ?_, ?_, ?_⟩
  · unfold trim
    rw [List.append_assoc, rdropWhile_append_rtakeWhile_self, List.takeWhile_append_dropWhile]
  · intro c hc
    exact List.mem_takeWhile_imp hc
  · intro c hc
    unfold List.rtakeWhile at hc
    exact List.mem_takeWhile_imp (List.mem_reverse.mp hc)

/-! ## Literal patterns under the flag `i` -/

theorem startsWithCI_take (a s : Str) (h : startsWithCI a s = true) :
    toLowerCase (List.take a.length s) = a ∧ s = List.take a.length s ++ List.drop a.length s := by
  induction a generalizing s with
  | nil => simp [toLowerCase]
  | cons p ps ih =>
    cases s with
    | nil => simp [startsWithCI] at h
    | cons c cs =>
      simp only [startsWithCI, Bool.and_eq_true, beq_iff_eq] at h
      obtain ⟨h1, h2⟩ := ih cs h.2
      constructor
      · simp only [toLowerCase] at h1
        simp [toLowerCase, h.1, h1]
      · simp

theorem startsWithCI_of_lower (m post : Str) :
    startsWithCI (toLowerCase m) (m ++ post) = true := by
  induction m with
  | nil => simp [toLowerCase, startsWithCI]
  | cons c cs ih =>
    simp only [toLowerCase, List.map_cons, List.cons_append, startsWithCI, beq_self_eq_true,
      Bool.true_and]
    exact ih

theorem take_length_lower (m post : Str) :
    List.take (toLowerCase m).length (m ++ post) = m := by
  simp [toLowerCase]

theorem matchAlt_some (alts : List Str) (s w : Str) (h : matchAlt alts s = some w) :
    toLowerCase w ∈ alts ∧ ∃ post, s = w ++ post := by
  induction alts with
  | nil => simp [matchAlt] at h
  | cons a rest ih =>
    unfold matchAlt at h
    split at h
    · rename_i hs
      obtain ⟨h1, h2⟩ := startsWithCI_take a s hs
      simp only [Option.some.injEq] at h
      subst h
      exact ⟨by simp [h1], _, h2⟩
    · obtain ⟨h1, h2⟩ := ih h
      exact ⟨List.mem_cons_of_mem _ h1, h2⟩

theorem matchAlt_ne_none (alts : List Str) (m post : Str) (h : toLowerCase m ∈ alts) :
    matchAlt alts (m ++ post) ≠ none := by
  induction alts with
  | nil => simp at h
  | cons a rest ih =>
    unfold matchAlt
    split
    · simp
    · rename_i hs
      rcases List.mem_cons.mp h with h | h
      · exact absurd (h ▸ startsWithCI_of_lower m post) hs
      · exact ih h

/-! ## Rule 1: what the priority pattern finds -/

theorem hasPriorityToken_cons (c : Char) (cs : Str) (h : HasPriorityToken (c :: cs)) :
    (c = '!' ∧ matchAlt priorityWords cs ≠ none) ∨ HasPriorityToken cs := by
  obtain ⟨pre, w, post, hs, hw⟩ := h
  cases pre with
  | nil =>
    left
    simp only [List.nil_append, List.cons_append, List.cons.injEq] at hs
    exact ⟨hs.1, hs.2 ▸ matchAlt_ne_none _ _ _ hw⟩
  | cons d ds =>
    right
    simp only [List.cons_append, List.cons.injEq] at hs
    exact ⟨ds, w, post, by simpa using hs.2, hw⟩

/-- Completeness of the priority pattern: it finds a token when there is one. -/
theorem matchPriority_none (s : Str) (h : matchPriority s = none) : ¬ HasPriorityToken s := by
  induction s with
  | nil =>
    rintro ⟨pre, w, post, hs, _⟩
    simp at hs
  | cons c cs ih =>
    intro ht
    unfold matchPriority at h
    rcases hasPriorityToken_cons c cs ht with ⟨hc, hm⟩ | ht'
    · rw [if_pos hc] at h
      split at h
      · simp at h
      · rename_i hn
        exact hm hn
    · split at h
      · split at h
        · simp at h
        · exact ih h ht'
      · exact ih h ht'

/-- Soundness of the priority pattern: what it returns is the leftmost token, and
deleting the first occurrence of the matched text deletes exactly that token. -/
theorem matchPriority_some (s w : Str) (h : matchPriority s = some w) :
    ∃ pre post, PriorityTokenAt s pre w post ∧
      (∀ pre' w' post', PriorityTokenAt s pre' w' post' → pre.length ≤ pre'.length) ∧
      replaceFirst ('!' :: w) s = pre ++ post := by
  induction s with
  | nil => simp [matchPriority] at h
  | cons c cs ih =>
    by_cases hm : c = '!' ∧ matchAlt priorityWords cs = some w
    · obtain ⟨hc, hw⟩ := hm
      obtain ⟨hw1, post, hw2⟩ := matchAlt_some _ _ _ hw
      refine ⟨[], post, ⟨by simp [hc, hw2], hw1⟩, by simp, ?_⟩
      subst hc hw2
      simp [replaceFirst]
    · have hrec : matchPriority cs = some w := by
        unfold matchPriority at h
        split at h
        · rename_i hc
          split at h
          · rename_i w' hw'
            simp only [Option.some.injEq] at h
            exact absurd ⟨hc, h ▸ hw'⟩ hm
          · exact h
        · exact h
      have hnone : ¬ (c = '!' ∧ matchAlt priorityWords cs ≠ none) := by
        rintro ⟨hc, hn⟩
        unfold matchPriority at h
        rw [if_pos hc] at h
        split at h
        · rename_i w' hw'
          simp only [Option.some.injEq] at h
          exact hm ⟨hc, h ▸ hw'⟩
        · rename_i hn'
          exact hn hn'
      obtain ⟨pre, post, ⟨hs, hw⟩, hleft, hrep⟩ := ih hrec
      refine ⟨c :: pre, post, ⟨by simp [hs], hw⟩, ?_, ?_⟩
      · rintro pre' w' post' ⟨hs', hw'⟩
        cases pre' with
        | nil =>
          exfalso
          simp only [List.nil_append, List.cons_append, List.cons.injEq] at hs'
          exact hnone ⟨hs'.1, hs'.2 ▸ matchAlt_ne_none _ _ _ hw'⟩
        | cons d ds =>
          simp only [List.cons_append, List.cons.injEq] at hs'
          have := hleft ds w' post' ⟨by simpa using hs'.2, hw'⟩
          simpa using this
      · unfold replaceFirst
        have hnp : List.isPrefixOf ('!' :: w) (c :: cs) = false := by
          by_contra hp
          simp only [Bool.not_eq_false, List.isPrefixOf_iff_prefix] at hp
          obtain ⟨t, ht⟩ := hp
          simp only [List.cons_append, List.cons.injEq] at ht
          exact hnone ⟨ht.1.symm, ht.2 ▸ matchAlt_ne_none _ _ _ hw⟩
        rw [if_neg (by simp [hnp]), hrep]
        simp

/-! ## Letters, word characters and white space -/

theorem isWordChar_of_lower (c : Char)
    (h : 97 ≤ (lowerChar c).toNat ∧ (lowerChar c).toNat ≤ 122) :
    isWordChar c = true ∧ isSpace c = false := by
  unfold lowerChar at h
  split_ifs at h with hc
  · constructor
    · simp only [isWordChar, isDigit, Bool.or_eq_true, Bool.and_eq_true, decide_eq_true_eq]
      omega
    · simp only [isSpace, Bool.or_eq_false_iff, Bool.and_eq_false_imp, decide_eq_true_eq,
        decide_eq_false_iff_not]
      omega
  · constructor
    · simp only [isWordChar, isDigit, Bool.or_eq_true, Bool.and_eq_true, decide_eq_true_eq]
      omega
    · simp only [isSpace, Bool.or_eq_false_iff, Bool.and_eq_false_imp, decide_eq_true_eq,
        decide_eq_false_iff_not]
      omega

theorem letterWord_chars (alts : List Str) (hl : LetterWords alts) (m : Str)
    (hm : toLowerCase m ∈ alts) :
    m ≠ [] ∧ ∀ c ∈ m, isWordChar c = true ∧ isSpace c = false := by
  obtain ⟨hne, hall⟩ := hl _ hm
  constructor
  · intro h
    subst h
    exact hne rfl
  · intro c hc
    apply isWordChar_of_lower
    apply hall
    exact List.mem_map_of_mem lowerChar hc

theorem letterWords_priorityWords : LetterWords priorityWords := by
  unfold LetterWords priorityWords
  decide

/-- A priority word ends in a character that is not white space. -/
theorem priorityWord_snoc (w : Str) (hw : toLowerCase w ∈ priorityWords) :
    ∃ mid y, w = mid ++ [y] ∧ isSpace y = false := by
  obtain ⟨hne, hall⟩ := letterWord_chars _ letterWords_priorityWords w hw
  refine ⟨w.dropLast, w.getLast hne, (List.dropLast_append_getLast hne).symm, ?_⟩
  exact (hall _ (List.getLast_mem hne)).2

theorem trim_priorityToken (pre w post : Str) (hw : toLowerCase w ∈ priorityWords) :
    trim (pre ++ ('!' :: w) ++ post)
      = List.dropWhile isSpace pre ++ ('!' :: w) ++ List.rdropWhile isSpace post := by
  obtain ⟨mid, y, rfl, hy⟩ := priorityWord_snoc w hw
  have h := trim_around pre '!' mid y post (by decide) hy
  simpa using h

theorem hasPriorityToken_trim (raw : Str) (h : HasPriorityToken raw) :
    HasPriorityToken (trim raw) := by
  obtain ⟨pre, w, post, rfl, hw⟩ := h
  exact ⟨_, w, _, trim_priorityToken pre w post hw, hw⟩

theorem hasPriorityToken_of_trim (raw : Str) (h : HasPriorityToken (trim raw)) :
    HasPriorityToken raw := by
  obtain ⟨pre, w, post, hs, hw⟩ := h
  obtain ⟨a, b, hab, _, _⟩ := trim_decomp raw
  refine ⟨a ++ pre, w, post ++ b, ?_, hw⟩
  rw [hab, hs]
  simp

/-- The priority rule on an input that holds a token, in terms of the raw input. -/
theorem priorityStep_of_token (env : Env) (raw : Str) (h : HasPriorityToken raw) :
    ∃ pre w post, PriorityTokenAt raw pre w post ∧
      (∀ pre' w' post', PriorityTokenAt raw pre' w' post' → pre.length ≤ pre'.length) ∧
      priorityStep (initFields env raw) =
        { text := trim (pre ++ post), priority := toLowerCase w, category := [], dueDate := [],
          dueTime := [] } := by
  have ht := hasPriorityToken_trim raw h
  cases hm : matchPriority (trim raw) with
  | none => exact absurd ht (matchPriority_none _ hm)
  | some w =>
    obtain ⟨pre0, post0, ⟨hs, hw⟩, hleft, hrep⟩ := matchPriority_some _ _ hm
    have hraw : raw = List.takeWhile isSpace raw ++ trim raw
        ++ List.rtakeWhile isSpace (List.dropWhile isSpace raw) := by
      unfold trim
      rw [List.append_assoc, rdropWhile_append_rtakeWhile_self, List.takeWhile_append_dropWhile]
    have ha : ∀ c ∈ List.takeWhile isSpace raw, isSpace c = true :=
      fun c hc => List.mem_takeWhile_imp hc
    have hb : ∀ c ∈ List.rtakeWhile isSpace (List.dropWhile isSpace raw), isSpace c = true := by
      intro c hc
      unfold List.rtakeWhile at hc
      exact List.mem_takeWhile_imp (List.mem_reverse.mp hc)
    refine ⟨List.takeWhile isSpace raw ++ pre0, w,
      post0 ++ List.rtakeWhile isSpace (List.dropWhile isSpace raw), ⟨?_, hw⟩, ?_, ?_⟩
    · conv_lhs => rw [hraw, hs]
      simp
    · rintro pre' w' post' ⟨hs', hw'⟩
      have h1 : trim raw = List.dropWhile isSpace pre' ++ ('!' :: w')
          ++ List.rdropWhile isSpace post' := by
        rw [hs']; exact trim_priorityToken pre' w' post' hw'
      have h2 := hleft _ _ _ ⟨h1, hw'⟩
      have h3 : List.takeWhile isSpace raw = List.takeWhile isSpace pre' := by
        rw [hs']
        have : pre' ++ '!' :: w' ++ post' = pre' ++ '!' :: (w' ++ post') := by simp
        rw [this, takeWhile_append_cons_neg _ _ _ (by decide)]
      have h4 : pre'.length
          = (List.takeWhile isSpace pre').length + (List.dropWhile isSpace pre').length := by
        rw [← List.length_append, List.takeWhile_append_dropWhile]
      rw [List.length_append, h3, h4]
      omega
    · unfold priorityStep initFields
      simp only [hm, hrep]
      have h5 : trim (List.takeWhile isSpace raw ++ pre0
          ++ (post0 ++ List.rtakeWhile isSpace (List.dropWhile isSpace raw)))
          = trim (pre0 ++ post0) := by
        have : List.takeWhile isSpace raw ++ pre0
            ++ (post0 ++ List.rtakeWhile isSpace (List.dropWhile isSpace raw))
            = List.takeWhile isSpace raw
              ++ ((pre0 ++ post0) ++ List.rtakeWhile isSpace (List.dropWhile isSpace raw)) := by
          simp
        rw [this, trim_spaces_append _ _ ha, trim_append_spaces _ _ hb]
      rw [h5]

/-! ## Rule 2: what the category pattern finds -/

theorem replaceFirst_prefix (tok post : Str) (h : tok ≠ []) :
    replaceFirst tok (tok ++ post) = post := by
  cases tok with
  | nil => exact absurd rfl h
  | cons c cs =>
    show replaceFirst (c :: cs) (c :: (cs ++ post)) = post
    unfold replaceFirst
    have hp : List.isPrefixOf (c :: cs) (c :: (cs ++ post)) = true := by
      simp [List.isPrefixOf_iff_prefix]
    rw [if_pos hp]
    simp

theorem takeWhile_ne_nil_of_head (x : Char) (q : Str) (h : isWordChar x = true) :
    List.takeWhile isWordChar (x :: q) ≠ [] := by
  simp [List.takeWhile, h]

theorem hasMarker_cons (c : Char) (cs : Str) (h : HasMarker (c :: cs)) :
    (c = '#' ∧ List.takeWhile isWordChar cs ≠ []) ∨ HasMarker cs := by
  obtain ⟨p, x, q, hs, hx⟩ := h
  cases p with
  | nil =>
    left
    simp only [List.nil_append, List.cons.injEq] at hs
    exact ⟨hs.1, hs.2 ▸ takeWhile_ne_nil_of_head x q hx⟩
  | cons d ds =>
    right
    simp only [List.cons_append, List.cons.injEq] at hs
    exact ⟨ds, x, q, hs.2, hx⟩

/-- Completeness of the category pattern. -/
theorem matchCategory_none (s : Str) (h : matchCategory s = none) : ¬ HasMarker s := by
  induction s with
  | nil =>
    rintro ⟨p, x, q, hs, _⟩
    simp at hs
  | cons c cs ih =>
    intro hm
    unfold matchCategory at h
    split at h
    · simp at h
    · rename_i hc
      rcases hasMarker_cons c cs hm with h1 | h1
      · exact hc h1
      · exact ih h h1

/-- Soundness of the category pattern: it returns the longest word after the
leftmost marker, and deleting the first occurrence of the matched text deletes
exactly that marker. -/
theorem matchCategory_some (s w : Str) (h : matchCategory s = some w) :
    ∃ pre post, s = pre ++ ('#' :: w) ++ post ∧ ¬ HasMarker (pre ++ ['#']) ∧
      w ≠ [] ∧ (∀ c ∈ w, isWordChar c = true) ∧ isWordOpt post.head? = false ∧
      replaceFirst ('#' :: w) s = pre ++ post := by
  induction s with
  | nil => simp [matchCategory] at h
  | cons c cs ih =>
    unfold matchCategory at h
    split at h
    · rename_i hc
      simp only [Option.some.injEq] at h
      obtain ⟨hc1, hc2⟩ := hc
      have hcs : w ++ List.dropWhile isWordChar cs = cs := by
        rw [← h]; exact List.takeWhile_append_dropWhile _ _
      refine ⟨[], List.dropWhile isWordChar cs, ?_, ?_, h ▸ hc2, ?_, ?_, ?_⟩
      · simp [hc1, hcs]
      · rintro ⟨p, x, q, hs, _⟩
        have := congrArg List.length hs
        simp at this
        omega
      · intro d hd
        rw [← h] at hd
        exact List.mem_takeWhile_imp hd
      · have := List.head?_dropWhile_not isWordChar cs
        cases hh : (List.dropWhile isWordChar cs).head? with
        | none => rfl
        | some y =>
          rw [hh] at this
          simpa [isWordOpt] using this
      · have := replaceFirst_prefix ('#' :: w) (List.dropWhile isWordChar cs) (by simp)
        simp only [List.cons_append, hcs] at this
        rw [hc1]
        simpa using this
    · rename_i hc
      obtain ⟨pre, post, hs, hleft, hne, hall, hpost, hrep⟩ := ih h
      refine ⟨c :: pre, post, by simp [hs], ?_, hne, hall, hpost, ?_⟩
      · intro hm
        rcases hasMarker_cons c (pre ++ ['#']) hm with ⟨h1, h2⟩ | h1
        · apply hc
          refine ⟨h1, ?_⟩
          rw [hs]
          cases pre with
          | nil => simp [List.takeWhile, isWordChar, isDigit] at h2
          | cons d ds =>
            simp only [List.cons_append, List.takeWhile] at h2 ⊢
            cases hd : isWordChar d with
            | true => simp
            | false => simp [hd] at h2
        · exact hleft h1
      · unfold replaceFirst
        have hnp : List.isPrefixOf ('#' :: w) (c :: cs) = false := by
          by_contra hp
          simp only [Bool.not_eq_false, List.isPrefixOf_iff_prefix] at hp
          obtain ⟨t, ht⟩ := hp
          simp only [List.cons_append, List.cons.injEq] at ht
          apply hc
          refine ⟨ht.1.symm, ?_⟩
          rw [← ht.2]
          cases w with
          | nil => exact absurd rfl hne
          | cons x xs =>
            exact takeWhile_ne_nil_of_head x _ (hall x (List.mem_cons_self _ _))
        rw [if_neg (by simp [hnp]), hrep]
        simp

/-! ## Whole-word patterns: what they find -/

theorem lastOf_none (pre : Str) : lastOf none pre = pre.getLast? := by
  have h : ∀ (prev : Option Char) (l : Str), lastOf prev l = l.getLast?.or prev := by
    intro prev l
    induction l generalizing prev with
    | nil => simp [lastOf]
    | cons c cs ih =>
      rw [lastOf, ih, List.getLast?_cons]
      cases cs.getLast? <;> simp
  rw [h]
  cases pre.getLast? <;> simp

theorem letterWords_tail (a : Str) (rest : List Str) (h : LetterWords (a :: rest)) :
    LetterWords rest := fun b hb => h b (List.mem_cons_of_mem _ hb)

theorem isWordOpt_head_of_letterWord (alts : List Str) (hl : LetterWords alts) (m post : Str)
    (hm : toLowerCase m ∈ alts) :
    isWordOpt (m ++ post).head? = true ∧ isWordOpt m.getLast? = true := by
  obtain ⟨hne, hall⟩ := letterWord_chars alts hl m hm
  constructor
  · cases m with
    | nil => exact absurd rfl hne
    | cons c cs => exact (hall c (List.mem_cons_self _ _)).1
  · have h := List.getLast?_eq_getLast m hne
    rw [h]
    exact (hall _ (List.getLast_mem hne)).1

/-- Soundness of the pattern at one position. -/
theorem matchWordAt_some (alts : List Str) (hl : LetterWords alts) (prev : Option Char)
    (s m : Str) (h : matchWordAt alts prev s = some m) :
    toLowerCase m ∈ alts ∧ isWordOpt prev = false ∧
      ∃ post, s = m ++ post ∧ isWordOpt post.head? = false := by
  induction alts with
  | nil => simp [matchWordAt] at h
  | cons a rest ih =>
    unfold matchWordAt at h
    split at h
    · rename_i hc
      simp only [Bool.and_eq_true] at hc
      obtain ⟨⟨hb1, hsw⟩, hb2⟩ := hc
      simp only [Option.some.injEq] at h
      obtain ⟨h1, h2⟩ := startsWithCI_take a s hsw
      rw [h] at h1 h2 hb2
      have hmem : toLowerCase m ∈ a :: rest := by simp [h1]
      obtain ⟨hw1, hw2⟩ := isWordOpt_head_of_letterWord _ hl m (List.drop a.length s) hmem
      rw [← h2] at hw1
      refine ⟨hmem, ?_, List.drop a.length s, h2, ?_⟩
      · simpa [wordBoundary, hw1] using hb1
      · simpa [wordBoundary, hw2] using hb2
    · obtain ⟨h1, h2⟩ := ih (letterWords_tail a rest hl) h
      exact ⟨List.mem_cons_of_mem _ h1, h2⟩

/-- Completeness of the pattern at one position. -/
theorem matchWordAt_ne_none (alts : List Str) (hl : LetterWords alts) (prev : Option Char)
    (m post : Str) (hm : toLowerCase m ∈ alts) (hprev : isWordOpt prev = false)
    (hpost : isWordOpt post.head? = false) :
    matchWordAt alts prev (m ++ post) ≠ none := by
  obtain ⟨hw1, hw2⟩ := isWordOpt_head_of_letterWord _ hl m post hm
  induction alts with
  | nil => simp at hm
  | cons a rest ih =>
    unfold matchWordAt
    split
    · simp
    · rename_i hc
      rcases List.mem_cons.mp hm with h | h
      · exfalso
        apply hc
        subst h
        rw [take_length_lower, startsWithCI_of_lower,
          List.drop_left' (by simp [toLowerCase] : m.length = (toLowerCase m).length)]
        unfold wordBoundary
        rw [hw1, hw2, hprev, hpost]
        rfl
      · exact ih (letterWords_tail a rest hl) h

/-- Soundness of the search: the match is a whole word of the list, and no such
whole word starts further left. -/
theorem findWord_some (alts : List Str) (hl : LetterWords alts) (prev : Option Char)
    (s pre m post : Str) (h : findWord alts prev s = some (pre, m, post)) :
    s = pre ++ m ++ post ∧ toLowerCase m ∈ alts ∧ isWordOpt (lastOf prev pre) = false ∧
      isWordOpt post.head? = false ∧
      ∀ pre' m' post', s = pre' ++ m' ++ post' → toLowerCase m' ∈ alts →
        isWordOpt (lastOf prev pre') = false → isWordOpt post'.head? = false →
        pre.length ≤ pre'.length := by
  induction s generalizing prev pre with
  | nil => simp [findWord] at h
  | cons c cs ih =>
    unfold findWord at h
    split at h
    · rename_i w hw
      simp only [Option.some.injEq, Prod.mk.injEq] at h
      obtain ⟨rfl, rfl, rfl⟩ := h
      obtain ⟨h1, h2, post', h3, h4⟩ := matchWordAt_some alts hl prev _ _ hw
      have h5 : List.drop w.length (c :: cs) = post' := by
        rw [h3]; exact List.drop_left _ _
      refine ⟨?_, h1, by simpa [lastOf] using h2, by rw [h5]; exact h4, ?_⟩
      · rw [h5]; simpa using h3
      · intros; simp
    · rename_i hw
      cases hr : findWord alts (some c) cs with
      | none => simp [hr] at h
      | some r =>
        obtain ⟨pre0, m0, post0⟩ := r
        simp only [hr, Option.map_some', Option.some.injEq, Prod.mk.injEq] at h
        obtain ⟨rfl, rfl, rfl⟩ := h
        obtain ⟨h1, h2, h3, h4, h5⟩ := ih (some c) pre0 hr
        refine ⟨by simp [h1], h2, by simpa [lastOf] using h3, h4, ?_⟩
        intro pre' m' post' hs hm' hp hq
        cases pre' with
        | nil =>
          exfalso
          simp only [List.nil_append] at hs
          rw [hs] at hw
          exact matchWordAt_ne_none alts hl prev m' post' hm' (by simpa [lastOf] using hp) hq hw
        | cons d ds =>
          simp only [List.cons_append, List.cons.injEq] at hs
          obtain ⟨rfl, hs⟩ := hs
          have := h5 ds m' post' (by simpa using hs) hm' (by simpa [lastOf] using hp) hq
          simpa using this

/-- Completeness of the search. -/
theorem findWord_none (alts : List Str) (hl : LetterWords alts) (prev : Option Char)
    (s : Str) (h : findWord alts prev s = none) (pre m post : Str)
    (hs : s = pre ++ m ++ post) (hm : toLowerCase m ∈ alts)
    (hp : isWordOpt (lastOf prev pre) = false) (hq : isWordOpt post.head? = false) : False := by
  induction s generalizing prev pre with
  | nil =>
    obtain ⟨hne, _⟩ := letterWord_chars alts hl m hm
    have := congrArg List.length hs
    simp at this
    exact hne (List.eq_nil_of_length_eq_zero (by omega))
  | cons c cs ih =>
    unfold findWord at h
    split at h
    · simp at h
    · rename_i hw
      cases pre with
      | nil =>
        simp only [List.nil_append] at hs
        rw [hs] at hw
        exact matchWordAt_ne_none alts hl prev m post hm (by simpa [lastOf] using hp) hq hw
      | cons d ds =>
        simp only [List.cons_append, List.cons.injEq] at hs
        obtain ⟨rfl, hs⟩ := hs
        cases hr : findWord alts (some c) cs with
        | none => exact ih (some c) hr ds (by simpa using hs) (by simpa [lastOf] using hp)
        | some r => simp [hr] at h

/-- The search from the start of a string, in the vocabulary of the
specification. -/
theorem findWord_of_hasWholeWord (alts : List Str) (hl : LetterWords alts) (s : Str)
    (h : HasWholeWord alts s) :
    ∃ pre m post, findWord alts none s = some (pre, m, post) ∧ WholeWordAt alts s pre m post ∧
      ∀ pre' m' post', WholeWordAt alts s pre' m' post' → pre.length ≤ pre'.length := by
  obtain ⟨pre1, m1, post1, hs1, hm1, hp1, hq1⟩ := h
  cases hr : findWord alts none s with
  | none =>
    exact (findWord_none alts hl none s hr pre1 m1 post1 hs1 hm1
      (by rw [lastOf_none]; exact hp1) hq1).elim
  | some r =>
    obtain ⟨pre, m, post⟩ := r
    obtain ⟨h1, h2, h3, h4, h5⟩ := findWord_some alts hl none s pre m post hr
    refine ⟨pre, m, post, rfl, ⟨h1, h2, by rw [← lastOf_none]; exact h3, h4⟩, ?_⟩
    rintro pre' m' post' ⟨g1, g2, g3, g4⟩
    exact h5 pre' m' post' g1 g2 (by rw [lastOf_none]; exact g3) g4

theorem findWord_eq_none_of_not (alts : List Str) (hl : LetterWords alts) (s : Str)
    (h : ¬ HasWholeWord alts s) : findWord alts none s = none := by
  cases hr : findWord alts none s with
  | none => rfl
  | some r =>
    obtain ⟨pre, m, post⟩ := r
    obtain ⟨h1, h2, h3, h4, _⟩ := findWord_some alts hl none s pre m post hr
    exact absurd ⟨pre, m, post, h1, h2, by rw [← lastOf_none]; exact h3, h4⟩ h

theorem letterWords_weekdayWords : LetterWords weekdayWords := by
  unfold LetterWords weekdayWords
  decide

theorem letterWords_today : LetterWords ["today".toList] := by
  unfold LetterWords
  decide

theorem letterWords_tomorrow : LetterWords ["tomorrow".toList] := by
  unfold LetterWords
  decide

/-! ## Rule 4: what the time pattern captures -/

theorem takeHours_shape (s h r : Str) (hs : takeHours s = some (h, r)) :
    (∃ d1, h = [d1] ∧ isDigit d1 = true) ∨
      (∃ d1 d2, h = [d1, d2] ∧ isDigit d1 = true ∧ isDigit d2 = true) := by
  unfold takeHours at hs
  split at hs
  · simp at hs
  · rename_i d1 rest
    split at hs
    · rename_i hd1
      split at hs
      · rename_i d2 rest2
        split at hs
        · rename_i hd2
          simp only [Option.some.injEq, Prod.mk.injEq] at hs
          exact Or.inr ⟨d1, d2, hs.1.symm, hd1, hd2⟩
        · simp only [Option.some.injEq, Prod.mk.injEq] at hs
          exact Or.inl ⟨d1, hs.1.symm, hd1⟩
      · simp only [Option.some.injEq, Prod.mk.injEq] at hs
        exact Or.inl ⟨d1, hs.1.symm, hd1⟩
    · simp at hs

theorem takeMinutes_shape (s : Str) :
    (takeMinutes s).1 = none ∨
      ∃ a b, (takeMinutes s).1 = some [a, b] ∧ isDigit a = true ∧ isDigit b = true := by
  unfold takeMinutes
  split
  · rename_i a b rest
    split
    · rename_i hab
      simp only [Bool.and_eq_true] at hab
      exact Or.inr ⟨a, b, rfl, hab.1, hab.2⟩
    · exact Or.inl rfl
  · exact Or.inl rfl

theorem matchTimeAt_shape (s : Str) (m : TimeMatch) (h : matchTimeAt s = some m) :
    TimeShape m := by
  unfold matchTimeAt at h
  split at h
  · simp at h
  · rename_i hh r1 hs
    simp only [Option.some.injEq] at h
    subst h
    refine ⟨takeHours_shape _ _ _ hs, takeMinutes_shape r1, ?_⟩
    intro mer hmer
    have := (matchAlt_some _ _ _ hmer).1
    simpa using this

theorem matchTime_shape (s : Str) (m : TimeMatch) (h : matchTime s = some m) : TimeShape m := by
  induction s with
  | nil => simp [matchTime] at h
  | cons c cs ih =>
    unfold matchTime at h
    split at h
    · rename_i m' hm'
      simp only [Option.some.injEq] at h
      exact h ▸ matchTimeAt_shape _ _ hm'
    · exact ih h

theorem isDigit_bounds (c : Char) (h : isDigit c = true) : 48 ≤ c.toNat ∧ c.toNat ≤ 57 := by
  simpa [isDigit] using h

theorem parseInt_le (m : TimeMatch) (h : TimeShape m) : parseInt m.hours ≤ 99 := by
  rcases h.1 with ⟨d1, h1, hd1⟩ | ⟨d1, d2, h1, hd1, hd2⟩
  · have := isDigit_bounds d1 hd1
    rw [h1]
    simp only [parseInt, List.foldl]
    omega
  · have := isDigit_bounds d1 hd1
    have := isDigit_bounds d2 hd2
    rw [h1]
    simp only [parseInt, List.foldl]
    omega

theorem adjustHours_le (H : Nat) (mer : Option Str) (h : H ≤ 99) : adjustHours H mer ≤ 99 := by
  unfold adjustHours
  split
  · simp only []
    split_ifs
    all_goals first
      | omega
      | (simp_all; omega)
  · exact h

/-- The hour computed on lines 237-241 is the hour the specification words. -/
theorem adjustHours_eq_hour24 (H : Nat) (mer : Option Str)
    (hmer : ∀ x, mer = some x → toLowerCase x = "am".toList ∨ toLowerCase x = "pm".toList) :
    adjustHours H mer = hour24 H mer := by
  cases mer with
  | none => rfl
  | some x =>
    have ham : ("am".toList : Str) ≠ "pm".toList := by decide
    rcases hmer x rfl with hx | hx
    · simp only [adjustHours, hour24, hx, ham]
      by_cases h12 : H = 12
      · simp [h12]
      · simp [h12]
    · simp only [adjustHours, hour24, hx]
      by_cases h12 : H < 12
      · simp [h12]
      · simp [h12]

theorem padStart_two_digits :
    ∀ n, n < 100 → (padStart 2 (natToString n)).length = 2 ∧
      (padStart 2 (natToString n)).all isDigit = true := by
  decide

theorem padStart_two_shape (n : Nat) (h : n ≤ 99) :
    ∃ a b, isDigit a = true ∧ isDigit b = true ∧ padStart 2 (natToString n) = [a, b] := by
  obtain ⟨h1, h2⟩ := padStart_two_digits n (by omega)
  match hl : padStart 2 (natToString n), h1, h2 with
  | [a, b], _, h2 =>
    simp only [List.all_cons, List.all_nil, Bool.and_true, Bool.and_eq_true] at h2
    exact ⟨a, b, h2.1, h2.2, rfl⟩

/-- The time rule writes two digits, a colon and two digits. -/
theorem timeStep_dueTime_shape (st : ParsedFields) (m : TimeMatch)
    (h : matchTime st.text = some m) :
    (timeStep st).dueTime
        = padStart 2 (natToString (hour24 (parseInt m.hours) m.meridiem))
          ++ ':' :: m.minutes.getD "00".toList ∧
      IsTwoByTwo (timeStep st).dueTime := by
  have hshape := matchTime_shape _ _ h
  have heq : (timeStep st).dueTime
      = padStart 2 (natToString (hour24 (parseInt m.hours) m.meridiem))
        ++ ':' :: m.minutes.getD "00".toList := by
    unfold timeStep
    simp only [h]
    rw [adjustHours_eq_hour24 _ _ hshape.2.2]
    cases m.minutes <;> rfl
  refine ⟨heq, ?_⟩
  rw [heq, ← adjustHours_eq_hour24 _ _ hshape.2.2]
  obtain ⟨a, b, ha, hb, hab⟩ :=
    padStart_two_shape _ (adjustHours_le _ m.meridiem (parseInt_le m hshape))
  rw [hab]
  rcases hshape.2.1 with hm | ⟨c, d, hm, hc, hd⟩
  · exact ⟨a, b, '0', '0', ha, hb, by decide, by decide, by simp [hm]⟩
  · exact ⟨a, b, c, d, ha, hb, hc, hd, by simp [hm]⟩

theorem priorityStep_dueTime (st : ParsedFields) : (priorityStep st).dueTime = st.dueTime := by
  unfold priorityStep; split <;> rfl

theorem categoryStep_dueTime (st : ParsedFields) : (categoryStep st).dueTime = st.dueTime := by
  unfold categoryStep; split <;> rfl

theorem relativeDayStep_dueTime (env : Env) (st : ParsedFields) :
    (relativeDayStep env st).dueTime = st.dueTime := by
  unfold relativeDayStep; simp only []; split_ifs <;> rfl

theorem timeStep_dueTime_none (st : ParsedFields) (h : matchTime st.text = none) :
    (timeStep st).dueTime = st.dueTime := by
  unfold timeStep; simp only [h]

/-! ## The rules on records written out field by field -/

theorem priorityStep_mk_some (t p c d e w t' : Str) (h : matchPriority t = some w)
    (ht : trim (replaceFirst ('!' :: w) t) = t') :
    priorityStep ⟨t, p, c, d, e⟩ = ⟨t', toLowerCase w, c, d, e⟩ := by
  simp only [priorityStep, h, ht]

theorem priorityStep_mk_none (t p c d e : Str) (h : matchPriority t = none) :
    priorityStep ⟨t, p, c, d, e⟩ = ⟨t, p, c, d, e⟩ := by
  simp only [priorityStep, h]

theorem categoryStep_mk_some (t p c d e w t' : Str) (h : matchCategory t = some w)
    (ht : trim (replaceFirst ('#' :: w) t) = t') :
    categoryStep ⟨t, p, c, d, e⟩ = ⟨t', p, w, d, e⟩ := by
  simp only [categoryStep, h, ht]

theorem categoryStep_mk_none (t p c d e : Str) (h : matchCategory t = none) :
    categoryStep ⟨t, p, c, d, e⟩ = ⟨t, p, c, d, e⟩ := by
  simp only [categoryStep, h]

theorem relativeDayStep_mk_today (env : Env) (t p c d e t' : Str)
    (h : testWord "today".toList t = true) (ht : trim (replaceWord "today".toList t) = t') :
    relativeDayStep env ⟨t, p, c, d, e⟩ = ⟨t', p, c, isoDateOfDay (Day env.now), e⟩ := by
  simp only [relativeDayStep, h, ht, if_true, toISODate_eq_isoDateOfDay]

theorem relativeDayStep_mk_tomorrow (env : Env) (t p c d e t' : Str)
    (h0 : testWord "today".toList t = false) (h : testWord "tomorrow".toList t = true)
    (ht : trim (replaceWord "tomorrow".toList t) = t') :
    relativeDayStep env ⟨t, p, c, d, e⟩
      = ⟨t', p, c, toISODate (setDate env env.now (getDate env env.now + 1)), e⟩ := by
  simp only [relativeDayStep, h0, h, ht, if_true]
  simp

theorem relativeDayStep_mk_none (env : Env) (t p c d e : Str)
    (h0 : testWord "today".toList t = false) (h : testWord "tomorrow".toList t = false) :
    relativeDayStep env ⟨t, p, c, d, e⟩ = ⟨t, p, c, d, e⟩ := by
  simp only [relativeDayStep, h0, h]
  simp

theorem timeStep_mk_some (t p c d e : Str) (m : TimeMatch) (t' e' : Str)
    (h : matchTime t = some m) (ht : trim (replaceFirst m.whole t) = t')
    (he : padStart 2 (natToString (adjustHours (parseInt m.hours) m.meridiem))
      ++ ':' :: m.minutes.getD "00".toList = e') :
    timeStep ⟨t, p, c, d, e⟩ = ⟨t', p, c, d, e'⟩ := by
  simp only [timeStep, h, ht, ← he]
  cases m.minutes <;> rfl

theorem timeStep_mk_none (t p c d e : Str) (h : matchTime t = none) :
    timeStep ⟨t, p, c, d, e⟩ = ⟨t, p, c, d, e⟩ := by
  simp only [timeStep, h]

theorem weekdayStep_mk_some (env : Env) (t p c d e pre m post t' : Str)
    (h : findWord weekdayWords none t = some (pre, m, post))
    (ht : trim (replaceFirst m t) = t') :
    weekdayStep env ⟨t, p, c, d, e⟩
      = ⟨t', p, c,
          toISODate (setDate env env.now
            (getDate env env.now
              + daysUntil (indexOf (toLowerCase m) days) (getDay env env.now))),
          e⟩ := by
  simp only [weekdayStep, h, ht]

theorem weekdayStep_mk_none (env : Env) (t p c d e : Str)
    (h : findWord weekdayWords none t = none) :
    weekdayStep env ⟨t, p, c, d, e⟩ = ⟨t, p, c, d, e⟩ := by
  simp only [weekdayStep, h]

theorem weekdayStep_dueDate (env : Env) (st : ParsedFields) (pre m post : Str)
    (h : findWord weekdayWords none st.text = some (pre, m, post)) :
    (weekdayStep env st).dueDate
      = toISODate (setDate env env.now
          (getDate env env.now
            + daysUntil (indexOf (toLowerCase m) days) (getDay env env.now))) := by
  simp only [weekdayStep, h]

/-! ## The rules in sequence -/

theorem parse_eq_weekdayStep (env : Env) (raw : Str) :
    TaskParser.parse env raw = weekdayStep env (afterTime env raw) := rfl

theorem not_hasWholeWord_of_findWord_none (alts : List Str) (hl : LetterWords alts) (s : Str)
    (h : findWord alts none s = none) : ¬ HasWholeWord alts s := by
  rintro ⟨pre, m, post, hs, hm, hp, hq⟩
  exact findWord_none alts hl none s h pre m post hs hm (by rw [lastOf_none]; exact hp) hq

theorem testWord_of_hasWholeWord (w s : Str) (hl : LetterWords [w]) (h : HasWholeWord [w] s) :
    testWord w s = true := by
  obtain ⟨pre, m, post, hf, _⟩ := findWord_of_hasWholeWord [w] hl s h
  simp [testWord, hf]

theorem toISODate_ne_nil (t : Int) : toISODate t ≠ [] := by
  unfold toISODate
  simp

/-- The weekday rule on a text that holds a whole-word weekday name. -/
theorem weekdayStep_of_hasWholeWord (env : Env) (st : ParsedFields)
    (h : HasWholeWord weekdayWords st.text) :
    ∃ pre m post, WholeWordAt weekdayWords st.text pre m post ∧
      (∀ pre' m' post', WholeWordAt weekdayWords st.text pre' m' post' →
        pre.length ≤ pre'.length) ∧
      (DueDateIsLocal env (daysUntil (indexOf (toLowerCase m) days) (getDay env env.now)) →
        (weekdayStep env st).dueDate
          = isoDateOfDay (Day (LocalTime env env.now)
              + daysUntil (indexOf (toLowerCase m) days) (getDay env env.now))) := by
  obtain ⟨pre, m, post, hf, hw, hleft⟩ :=
    findWord_of_hasWholeWord weekdayWords letterWords_weekdayWords st.text h
  refine ⟨pre, m, post, hw, hleft, ?_⟩
  intro hd
  rw [weekdayStep_dueDate env st pre m post hf, toISODate_setDate env _ hd]

/-- The relative-day rule on a text that holds one of its keywords writes a due
date. -/
theorem relativeDayStep_dueDate_of_keyword (env : Env) (st : ParsedFields)
    (h : HasWholeWord ["today".toList] st.text ∨ HasWholeWord ["tomorrow".toList] st.text) :
    (relativeDayStep env st).dueDate ≠ [] := by
  unfold relativeDayStep
  simp only []
  split_ifs with h1 h2
  · exact toISODate_ne_nil _
  · exact toISODate_ne_nil _
  · exfalso
    rcases h with h | h
    · exact h1 (testWord_of_hasWholeWord _ _ letterWords_today h)
    · exact h2 (testWord_of_hasWholeWord _ _ letterWords_tomorrow h)

theorem afterRelativeDay_dueTime (env : Env) (raw : Str) :
    (afterRelativeDay env raw).dueTime = [] := by
  unfold afterRelativeDay afterCategory afterPriority
  rw [relativeDayStep_dueTime, categoryStep_dueTime, priorityStep_dueTime]
  rfl

/-! ## The weekday offset -/

/-- C4: for a target weekday index `W` and a current weekday index `C`, both in
0..6, the offset computed on line 252 lies in 1..7, leads from `C` to `W`
modulo 7, and is 7 exactly when `W = C`. -/
theorem daysUntil_law (W C : Int) (hW : 0 ≤ W ∧ W ≤ 6) (hC : 0 ≤ C ∧ C ≤ 6) :
    (1 ≤ daysUntil W C ∧ daysUntil W C ≤ 7) ∧ (C + daysUntil W C) % 7 = W ∧
      (daysUntil W C = 7 ↔ W = C) := by
  unfold daysUntil
  have h : Int.tmod (W - C + 7) 7 = (W - C + 7) % 7 :=
    Int.tmod_eq_emod (by omega) (by omega)
  simp only [h]
  split_ifs with h0 <;> omega

theorem daysUntil_law_witness :
    ((0 : Int) ≤ 1 ∧ (1 : Int) ≤ 6) ∧ ((0 : Int) ≤ 3 ∧ (3 : Int) ≤ 6) ∧
      ((1 ≤ daysUntil 1 3 ∧ daysUntil 1 3 ≤ 7) ∧ (3 + daysUntil 1 3) % 7 = 1 ∧
        (daysUntil 1 3 = 7 ↔ (1 : Int) = 3)) :=
  ⟨by decide, by decide, daysUntil_law 1 3 (by decide) (by decide)⟩

/-! ## Worked inputs -/

/-! ## The priority marker -/

/-- C1, counterexample: on `Fix bug !high !low` the parser returns priority
`high` although the input also holds the token `!low`, and the returned text
still holds that token. -/
theorem priority_second_token_stays :
    HasPriorityToken "Fix bug !high !low".toList ∧
      (TaskParser.parse sampleEnv "Fix bug !high !low".toList).priority = "high".toList ∧
      HasPriorityToken (TaskParser.parse sampleEnv "Fix bug !high !low".toList).text := by
  refine ⟨⟨"Fix bug ".toList, "high".toList, " !low".toList, by decide, by decide⟩, by decide!, ?_⟩
  have ht : (TaskParser.parse sampleEnv "Fix bug !high !low".toList).text = "Fix bug  !low".toList := by
    decide!
  rw [ht]
  exact ⟨"Fix bug  ".toList, "low".toList, [], by decide, by decide⟩

/-- C1, amended: when the raw input holds a priority token, it splits around the
leftmost one as `pre ++ "!" ++ w ++ post`; the parser returns the lower-cased
`w` as priority, and the other rules run on the trimmed `pre ++ post`, so only
that one occurrence is deleted by the priority rule. -/
theorem parse_priority_of_token (env : Env) (raw : Str) (h : HasPriorityToken raw) :
    ∃ pre w post, PriorityTokenAt raw pre w post ∧
      (∀ pre' w' post', PriorityTokenAt raw pre' w' post' → pre.length ≤ pre'.length) ∧
      (TaskParser.parse env raw).priority = toLowerCase w ∧
      TaskParser.parse env raw = weekdayStep env (timeStep (relativeDayStep env (categoryStep
        { text := trim (pre ++ post), priority := toLowerCase w, category := [],
          dueDate := [], dueTime := [] }))) := by
  obtain ⟨pre, w, post, h1, h2, h3⟩ := priorityStep_of_token env raw h
  refine ⟨pre, w, post, h1, h2, ?_, ?_⟩
  · rw [parse_priority, h3]
  · unfold TaskParser.parse
    rw [h3]

theorem parse_priority_of_token_witness :
    HasPriorityToken "Fix bug !HIGH".toList ∧
      ∃ pre w post, PriorityTokenAt "Fix bug !HIGH".toList pre w post ∧
        (∀ pre' w' post', PriorityTokenAt "Fix bug !HIGH".toList pre' w' post' →
          pre.length ≤ pre'.length) ∧
        (TaskParser.parse sampleEnv "Fix bug !HIGH".toList).priority = toLowerCase w ∧
        TaskParser.parse sampleEnv "Fix bug !HIGH".toList
          = weekdayStep sampleEnv (timeStep (relativeDayStep sampleEnv (categoryStep
            { text := trim (pre ++ post), priority := toLowerCase w, category := [],
              dueDate := [], dueTime := [] }))) :=
  ⟨⟨"Fix bug ".toList, "HIGH".toList, [], by decide, by decide⟩,
    parse_priority_of_token sampleEnv _
      ⟨"Fix bug ".toList, "HIGH".toList, [], by decide, by decide⟩⟩

/-- C10: an input with no priority token gets the configured default priority. -/
theorem parse_default_priority (env : Env) (raw : Str) (h : ¬ HasPriorityToken raw) :
    (TaskParser.parse env raw).priority = env.defaultPriority := by
  rw [parse_priority]
  have hm : matchPriority (trim raw) = none := by
    cases hm : matchPriority (trim raw) with
    | none => rfl
    | some w =>
      obtain ⟨pre, post, ht, _⟩ := matchPriority_some _ _ hm
      exact absurd (hasPriorityToken_of_trim raw ⟨pre, w, post, ht⟩) h
  simp only [priorityStep, initFields, hm]

theorem parse_default_priority_witness :
    ¬ HasPriorityToken "Buy milk".toList ∧
      (TaskParser.parse sampleEnv "Buy milk".toList).priority = sampleEnv.defaultPriority :=
  ⟨matchPriority_none _ (by decide),
    parse_default_priority sampleEnv _ (matchPriority_none _ (by decide))⟩

/-! ## Worked inputs -/

/-- C2, failing input: `TaskParser.parse("Buy milk tomorrow #shopping !high")`
returns the text `Buy milk`, priority `high`, category `shopping` and an empty
time whatever the clock, but the due date is the UTC date of the instant it
computes in local time.  In New York at 2024-11-02T23:30Z (19:30 local, the
evening before daylight saving time ends) it returns `2024-11-04`, where the day
after the current date is `2024-11-03` in local time and in UTC alike; in Tokyo
at 2024-01-03T23:00Z (08:00 on 2024-01-04 local) it returns `2024-01-04`, the
current local date itself.  The date is the day after the current date for a
clock and a zone in which the due instant has the same calendar date in UTC as
in local time. -/
theorem tomorrow_written_in_utc (env : Env) :
    (TaskParser.parse env "Buy milk tomorrow #shopping !high".toList).text = "Buy milk".toList ∧
      (TaskParser.parse env "Buy milk tomorrow #shopping !high".toList).priority
        = "high".toList ∧
      (TaskParser.parse env "Buy milk tomorrow #shopping !high".toList).category
        = "shopping".toList ∧
      (TaskParser.parse env "Buy milk tomorrow #shopping !high".toList).dueTime = [] ∧
      (TaskParser.parse (newYorkEnv 1730590200000)
          "Buy milk tomorrow #shopping !high".toList).dueDate = "2024-11-04".toList ∧
      isoDateOfDay (Day (LocalTime (newYorkEnv 1730590200000) 1730590200000) + 1)
        = "2024-11-03".toList ∧
      isoDateOfDay (Day 1730590200000 + 1) = "2024-11-03".toList ∧
      (TaskParser.parse tokyoEnv "Buy milk tomorrow #shopping !high".toList).dueDate
        = "2024-01-04".toList ∧
      isoDateOfDay (Day (LocalTime tokyoEnv tokyoEnv.now)) = "2024-01-04".toList ∧
      (DueDateIsLocal env 1 →
        (TaskParser.parse env "Buy milk tomorrow #shopping !high".toList).dueDate
          = isoDateOfDay (Day (LocalTime env env.now) + 1)) := by
  have hparse : TaskParser.parse env "Buy milk tomorrow #shopping !high".toList =
      { text := "Buy milk".toList, priority := "high".toList, category := "shopping".toList,
        dueDate := toISODate (setDate env env.now (getDate env env.now + 1)),
        dueTime := [] } := by
    unfold TaskParser.parse initFields
    rw [show trim "Buy milk tomorrow #shopping !high".toList
        = "Buy milk tomorrow #shopping !high".toList from by decide!]
    rw [priorityStep_mk_some "Buy milk tomorrow #shopping !high".toList _ _ _ _ "high".toList
      "Buy milk tomorrow #shopping".toList (by decide!) (by decide!)]
    rw [categoryStep_mk_some "Buy milk tomorrow #shopping".toList _ _ _ _ "shopping".toList
      "Buy milk tomorrow".toList (by decide!) (by decide!)]
    rw [relativeDayStep_mk_tomorrow env "Buy milk tomorrow".toList _ _ _ _ "Buy milk".toList
      (by decide!) (by decide!) (by decide!)]
    rw [timeStep_mk_none "Buy milk".toList _ _ _ _ (by decide!)]
    rw [weekdayStep_mk_none env "Buy milk".toList _ _ _ _ (by decide!)]
    rfl
  refine ⟨by rw [hparse], by rw [hparse], by rw [hparse], by rw [hparse],
    by decide!, by decide!, by decide!, by decide!, by decide!, ?_⟩
  intro h
  rw [hparse]
  exact toISODate_setDate env 1 h

theorem tomorrow_written_in_utc_witness :
    DueDateIsLocal sampleEnv 1 ∧
      (TaskParser.parse sampleEnv "Buy milk tomorrow #shopping !high".toList).dueDate
        = isoDateOfDay (Day (LocalTime sampleEnv sampleEnv.now) + 1) :=
  ⟨dueDateIsLocal_sampleEnv 1,
    (tomorrow_written_in_utc sampleEnv).2.2.2.2.2.2.2.2.2 (dueDateIsLocal_sampleEnv 1)⟩

/-! ## The weekday rule -/

/-- C3, counterexample: `Release v2 monday` holds the whole word `monday` and no
relative-day keyword, yet the parser returns no due date: the time rule takes
`2 ` out first, which joins `v` and `monday`.  And in New York at
2024-10-30T23:30Z, a Wednesday evening with the end of daylight saving time
ahead, `Team sync monday 9am` gets the date `2024-11-05`, where the current date
plus five days is `2024-11-04`. -/
theorem weekday_lost_after_time_rule :
    WholeWordAt weekdayWords "Release v2 monday".toList "Release v2 ".toList "monday".toList [] ∧
      ¬ HasWholeWord ["today".toList] "Release v2 monday".toList ∧
      ¬ HasWholeWord ["tomorrow".toList] "Release v2 monday".toList ∧
      (TaskParser.parse sampleEnv "Release v2 monday".toList).dueDate = [] ∧
      (∀ d, (TaskParser.parse sampleEnv "Release v2 monday".toList).dueDate ≠ isoDateOfDay d) ∧
      getDay (newYorkEnv 1730331000000) 1730331000000 = 3 ∧
      (TaskParser.parse (newYorkEnv 1730331000000) "Team sync monday 9am".toList).dueDate
        = "2024-11-05".toList ∧
      isoDateOfDay (Day (LocalTime (newYorkEnv 1730331000000) 1730331000000) + 5)
        = "2024-11-04".toList := by
  have hd : (TaskParser.parse sampleEnv "Release v2 monday".toList).dueDate = [] := by decide!
  refine ⟨⟨by decide, by decide, by decide, by decide⟩,
    not_hasWholeWord_of_findWord_none _ letterWords_today _ (by decide!),
    not_hasWholeWord_of_findWord_none _ letterWords_tomorrow _ (by decide!), hd, ?_,
    by decide!, by decide!, by decide!⟩
  intro d
  rw [hd]
  exact (toISODate_ne_nil _).symm

/-- C3, amended: when `getDay()` says Wednesday, `TaskParser.parse("Team sync monday 9am")`
returns the text `Team sync`, the time `09:00` and the date five days after the
current date, the upcoming Monday; in general, when the text that reaches the
weekday rule holds a whole-word weekday name, the due date is the current date
plus the offset computed for the leftmost such name.  Both are stated for a
clock and a zone in which the due instant has the same calendar date in UTC as
in local time. -/
theorem weekday_rule_sets_dueDate (env : Env) (raw : Str) :
    (getDay env env.now = 3 → DueDateIsLocal env 5 →
      TaskParser.parse env "Team sync monday 9am".toList =
        { text := "Team sync".toList, priority := env.defaultPriority, category := [],
          dueDate := isoDateOfDay (Day (LocalTime env env.now) + 5),
          dueTime := "09:00".toList } ∧
      WeekDay ((Day (LocalTime env env.now) + 5) * msPerDay) = 1) ∧
    (HasWholeWord weekdayWords (afterTime env raw).text →
      ∃ pre m post, WholeWordAt weekdayWords (afterTime env raw).text pre m post ∧
        (∀ pre' m' post', WholeWordAt weekdayWords (afterTime env raw).text pre' m' post' →
          pre.length ≤ pre'.length) ∧
        (DueDateIsLocal env (daysUntil (indexOf (toLowerCase m) days) (getDay env env.now)) →
          (TaskParser.parse env raw).dueDate
            = isoDateOfDay (Day (LocalTime env env.now)
                + daysUntil (indexOf (toLowerCase m) days) (getDay env env.now)))) := by
  constructor
  · intro hday hlocal
    constructor
    · unfold TaskParser.parse initFields
      rw [show trim "Team sync monday 9am".toList = "Team sync monday 9am".toList from by decide!]
      rw [priorityStep_mk_none "Team sync monday 9am".toList _ _ _ _ (by decide!)]
      rw [categoryStep_mk_none "Team sync monday 9am".toList _ _ _ _ (by decide!)]
      rw [relativeDayStep_mk_none env "Team sync monday 9am".toList _ _ _ _ (by decide!)
        (by decide!)]
      rw [timeStep_mk_some "Team sync monday 9am".toList _ _ _ _
        ⟨"9am".toList, "9".toList, none, some "am".toList⟩ "Team sync monday".toList
        "09:00".toList (by decide!) (by decide!) (by decide!)]
      rw [weekdayStep_mk_some env "Team sync monday".toList _ _ _ _ "Team sync ".toList
        "monday".toList [] "Team sync".toList (by decide!) (by decide!)]
      rw [hday, show daysUntil (indexOf (toLowerCase "monday".toList) days) 3 = 5 from by decide!,
        toISODate_setDate env 5 hlocal]
    · unfold getDay WeekDay at hday
      unfold WeekDay
      rw [Day_mul_msPerDay]
      omega
  · intro h
    rw [parse_eq_weekdayStep]
    exact weekdayStep_of_hasWholeWord env (afterTime env raw) h

theorem weekday_rule_sets_dueDate_witness :
    getDay sampleEnv sampleEnv.now = 3 ∧ DueDateIsLocal sampleEnv 5 ∧
      HasWholeWord weekdayWords (afterTime sampleEnv "Team sync monday 9am".toList).text ∧
      TaskParser.parse sampleEnv "Team sync monday 9am".toList =
        { text := "Team sync".toList, priority := sampleEnv.defaultPriority, category := [],
          dueDate := isoDateOfDay (Day (LocalTime sampleEnv sampleEnv.now) + 5),
          dueTime := "09:00".toList } ∧
      ∃ pre m post,
        WholeWordAt weekdayWords (afterTime sampleEnv "Team sync monday 9am".toList).text
          pre m post ∧
        (TaskParser.parse sampleEnv "Team sync monday 9am".toList).dueDate
          = isoDateOfDay (Day (LocalTime sampleEnv sampleEnv.now)
              + daysUntil (indexOf (toLowerCase m) days) (getDay sampleEnv sampleEnv.now)) := by
  have hday : getDay sampleEnv sampleEnv.now = 3 := by decide!
  have ht : (afterTime sampleEnv "Team sync monday 9am".toList).text
      = "Team sync monday".toList := by decide!
  have hw : HasWholeWord weekdayWords
      (afterTime sampleEnv "Team sync monday 9am".toList).text := by
    rw [ht]
    exact ⟨"Team sync ".toList, "monday".toList, [], by decide, by decide, by decide, by decide⟩
  obtain ⟨pre, m, post, h1, _, h3⟩ :=
    (weekday_rule_sets_dueDate sampleEnv "Team sync monday 9am".toList).2 hw
  exact ⟨hday, dueDateIsLocal_sampleEnv 5, hw,
    ((weekday_rule_sets_dueDate sampleEnv "Team sync monday 9am".toList).1 hday
      (dueDateIsLocal_sampleEnv 5)).1,
    pre, m, post, h1, h3 (dueDateIsLocal_sampleEnv _)⟩

/-- C8, counterexample: `today v2 monday` holds the whole words `today` and
`monday`, yet the due date returned is today's date and not the date of the
weekday rule: once `2 ` is taken out, `monday` is no longer a whole word.  And
in New York at 2024-10-30T23:30Z, a Wednesday evening with the end of daylight
saving time ahead, `tomorrow monday` gets the date `2024-11-05`, where the
current date plus the weekday offset is `2024-11-04`. -/
theorem relative_day_stays_when_weekday_lost :
    WholeWordAt ["today".toList] "today v2 monday".toList [] "today".toList " v2 monday".toList ∧
      WholeWordAt weekdayWords "today v2 monday".toList "today v2 ".toList "monday".toList [] ∧
      (TaskParser.parse sampleEnv "today v2 monday".toList).dueDate = isoDateOfDay (Day sampleEnv.now) ∧
      (TaskParser.parse sampleEnv "today v2 monday".toList).dueDate
        ≠ isoDateOfDay (Day sampleEnv.now
            + daysUntil (indexOf "monday".toList days) (getDay sampleEnv sampleEnv.now)) ∧
      (TaskParser.parse (newYorkEnv 1730331000000) "tomorrow monday".toList).dueDate
        = "2024-11-05".toList ∧
      isoDateOfDay (Day (LocalTime (newYorkEnv 1730331000000) 1730331000000)
          + daysUntil (indexOf "monday".toList days)
              (getDay (newYorkEnv 1730331000000) 1730331000000))
        = "2024-11-04".toList := by
  refine ⟨⟨by decide, by decide, by decide, by decide⟩,
    ⟨by decide, by decide, by decide, by decide⟩, by decide!, by decide!, by decide!,
    by decide!⟩

/-- C8, amended: when the text that reaches the relative-day rule holds `today`
or `tomorrow` as a whole word and the text that reaches the weekday rule holds a
whole-word weekday name, the relative-day rule writes a due date and the weekday
rule overwrites it: the date returned is the one the weekday rule computes,
whatever date it found, and it is the current date plus the offset of the
leftmost weekday name for a clock and a zone in which the due instant has the
same calendar date in UTC as in local time. -/
theorem weekday_overwrites_relative_day (env : Env) (raw : Str)
    (hrel : HasWholeWord ["today".toList] (afterCategory env raw).text ∨
      HasWholeWord ["tomorrow".toList] (afterCategory env raw).text)
    (hwd : HasWholeWord weekdayWords (afterTime env raw).text) :
    (afterRelativeDay env raw).dueDate ≠ [] ∧
    (∀ d, (weekdayStep env { afterTime env raw with dueDate := d }).dueDate
      = (TaskParser.parse env raw).dueDate) ∧
    ∃ pre m post, WholeWordAt weekdayWords (afterTime env raw).text pre m post ∧
      (∀ pre' m' post', WholeWordAt weekdayWords (afterTime env raw).text pre' m' post' →
        pre.length ≤ pre'.length) ∧
      (DueDateIsLocal env (daysUntil (indexOf (toLowerCase m) days) (getDay env env.now)) →
        (TaskParser.parse env raw).dueDate
          = isoDateOfDay (Day (LocalTime env env.now)
              + daysUntil (indexOf (toLowerCase m) days) (getDay env env.now))) := by
  refine ⟨relativeDayStep_dueDate_of_keyword env _ hrel, ?_, ?_⟩
  · intro d
    obtain ⟨pre, m, post, hf, _⟩ :=
      findWord_of_hasWholeWord weekdayWords letterWords_weekdayWords _ hwd
    rw [parse_eq_weekdayStep, weekdayStep_dueDate env (afterTime env raw) pre m post hf,
      weekdayStep_dueDate env { afterTime env raw with dueDate := d } pre m post hf]
  · rw [parse_eq_weekdayStep]
    exact weekdayStep_of_hasWholeWord env (afterTime env raw) hwd

theorem weekday_overwrites_relative_day_witness :
    (HasWholeWord ["today".toList] (afterCategory sampleEnv "tomorrow friday".toList).text ∨
      HasWholeWord ["tomorrow".toList] (afterCategory sampleEnv "tomorrow friday".toList).text) ∧
    HasWholeWord weekdayWords (afterTime sampleEnv "tomorrow friday".toList).text ∧
    (afterRelativeDay sampleEnv "tomorrow friday".toList).dueDate ≠ [] ∧
    (TaskParser.parse sampleEnv "tomorrow friday".toList).dueDate = "2024-01-05".toList ∧
    ∃ pre m post,
      WholeWordAt weekdayWords (afterTime sampleEnv "tomorrow friday".toList).text pre m post ∧
      (TaskParser.parse sampleEnv "tomorrow friday".toList).dueDate
        = isoDateOfDay (Day (LocalTime sampleEnv sampleEnv.now)
            + daysUntil (indexOf (toLowerCase m) days) (getDay sampleEnv sampleEnv.now)) := by
  have h1 : (afterCategory sampleEnv "tomorrow friday".toList).text
      = "tomorrow friday".toList := by decide!
  have h2 : (afterTime sampleEnv "tomorrow friday".toList).text = "friday".toList := by decide!
  have hrel : HasWholeWord ["today".toList]
        (afterCategory sampleEnv "tomorrow friday".toList).text ∨
      HasWholeWord ["tomorrow".toList]
        (afterCategory sampleEnv "tomorrow friday".toList).text := by
    right
    rw [h1]
    exact ⟨[], "tomorrow".toList, " friday".toList, by decide, by decide, by decide, by decide⟩
  have hwd : HasWholeWord weekdayWords (afterTime sampleEnv "tomorrow friday".toList).text := by
    rw [h2]
    exact ⟨[], "friday".toList, [], by decide, by decide, by decide, by decide⟩
  obtain ⟨g1, _, pre, m, post, g3, _, g5⟩ :=
    weekday_overwrites_relative_day sampleEnv "tomorrow friday".toList hrel hwd
  exact ⟨hrel, hwd, g1, by decide!, pre, m, post, g3, g5 (dueDateIsLocal_sampleEnv _)⟩

/-- C9, failing input: in `No mondays starting monday` the weekday pattern
matches the last word, but the text returned has lost the letters `monday` of
`mondays` instead: `replace` is given the matched string, not the pattern, and
deletes its first occurrence. -/
theorem weekday_deleted_inside_longer_word :
    findWord weekdayWords none (afterTime sampleEnv "No mondays starting monday".toList).text
        = some ("No mondays starting ".toList, "monday".toList, []) ∧
      (TaskParser.parse sampleEnv "No mondays starting monday".toList).text
        = "No s starting monday".toList ∧
      (TaskParser.parse sampleEnv "No mondays starting monday".toList).text
        ≠ trim ("No mondays starting ".toList ++ []) := by
  refine ⟨by decide!, by decide!, by decide!⟩

/-! ## The time of day -/

/-- C5, counterexample: the first time-of-day match of the input `#3pm` is `3pm`,
hour 3 with the suffix `pm`, yet the parser returns no time: the category rule
runs first and takes `#3pm` as a category. -/
theorem time_token_taken_by_category :
    matchTime "#3pm".toList
        = some { whole := "3pm".toList, hours := "3".toList, minutes := none,
                 meridiem := some "pm".toList } ∧
      (TaskParser.parse sampleEnv "#3pm".toList).dueTime = [] ∧
      (TaskParser.parse sampleEnv "#3pm".toList).category = "3pm".toList := by
  refine ⟨by decide!, by decide!, by decide!⟩

/-- C5, amended: when the time pattern matches the text left by the priority,
category and relative-day rules, with hour digits `H`, optional minutes `MM` and
optional suffix, the parser returns the two-digit hour of the specification
(`H + 12` for `pm` with `H < 12`, `H` for `pm` with `H ≥ 12`, 0 for `am` with
`H = 12`, `H` otherwise), a colon and `MM` or `00`; and
`TaskParser.parse("Call mom at 3pm")` gives the time `15:00` and the text `Call mom at`,
which holds neither `3pm` nor `3 pm`. -/
theorem time_rule_dueTime (env : Env) (raw : Str) (m : TimeMatch)
    (h : matchTime (afterRelativeDay env raw).text = some m) :
    TimeShape m ∧
      (TaskParser.parse env raw).dueTime
        = padStart 2 (natToString (hour24 (parseInt m.hours) m.meridiem))
          ++ ':' :: m.minutes.getD "00".toList ∧
      (TaskParser.parse env "Call mom at 3pm".toList).dueTime = "15:00".toList ∧
      (TaskParser.parse env "Call mom at 3pm".toList).text = "Call mom at".toList ∧
      ¬ List.IsInfix "3pm".toList (TaskParser.parse env "Call mom at 3pm".toList).text ∧
      ¬ List.IsInfix "3 pm".toList (TaskParser.parse env "Call mom at 3pm".toList).text := by
  have hcall : TaskParser.parse env "Call mom at 3pm".toList
      = { text := "Call mom at".toList, priority := env.defaultPriority, category := [],
          dueDate := [], dueTime := "15:00".toList } := by
    unfold TaskParser.parse initFields
    rw [show trim "Call mom at 3pm".toList = "Call mom at 3pm".toList from by decide!]
    rw [priorityStep_mk_none "Call mom at 3pm".toList _ _ _ _ (by decide!)]
    rw [categoryStep_mk_none "Call mom at 3pm".toList _ _ _ _ (by decide!)]
    rw [relativeDayStep_mk_none env "Call mom at 3pm".toList _ _ _ _ (by decide!) (by decide!)]
    rw [timeStep_mk_some "Call mom at 3pm".toList _ _ _ _
      ⟨"3pm".toList, "3".toList, none, some "pm".toList⟩ "Call mom at".toList
      "15:00".toList (by decide!) (by decide!) (by decide!)]
    rw [weekdayStep_mk_none env "Call mom at".toList _ _ _ _ (by decide!)]
  refine ⟨matchTime_shape _ _ h, ?_, ?_, ?_, ?_, ?_⟩
  · rw [parse_eq_weekdayStep, weekdayStep_dueTime]
    exact (timeStep_dueTime_shape _ m h).1
  · rw [hcall]
  · rw [hcall]
  · rw [hcall]
    show ¬ List.IsInfix "3pm".toList "Call mom at".toList
    decide
  · rw [hcall]
    show ¬ List.IsInfix "3 pm".toList "Call mom at".toList
    decide

theorem time_rule_dueTime_witness :
    matchTime (afterRelativeDay sampleEnv "Lunch 12:30 am".toList).text
        = some { whole := "12:30 am".toList, hours := "12".toList,
                 minutes := some "30".toList, meridiem := some "am".toList } ∧
      (TaskParser.parse sampleEnv "Lunch 12:30 am".toList).dueTime
        = padStart 2 (natToString (hour24 (parseInt "12".toList) (some "am".toList)))
          ++ ':' :: "30".toList ∧
      (TaskParser.parse sampleEnv "Lunch 12:30 am".toList).dueTime = "00:30".toList := by
  have h : matchTime (afterRelativeDay sampleEnv "Lunch 12:30 am".toList).text
      = some { whole := "12:30 am".toList, hours := "12".toList,
               minutes := some "30".toList, meridiem := some "am".toList } := by decide!
  exact ⟨h, (time_rule_dueTime sampleEnv "Lunch 12:30 am".toList _ h).2.1, by decide!⟩

theorem padStart_two_ne_99 : ∀ h, h ≤ 23 → padStart 2 (natToString h) ≠ "99".toList := by
  decide

/-- C6, counterexample: `Buy 99 balloons` gets the time `99:00`, which is not a
valid 24-hour time. -/
theorem dueTime_hour_99 :
    (TaskParser.parse sampleEnv "Buy 99 balloons".toList).dueTime = "99:00".toList ∧
      ¬ IsClockTime (TaskParser.parse sampleEnv "Buy 99 balloons".toList).dueTime := by
  have hd : (TaskParser.parse sampleEnv "Buy 99 balloons".toList).dueTime = "99:00".toList := by decide!
  refine ⟨hd, ?_⟩
  rw [hd]
  rintro ⟨h, m, hh, _, heq⟩
  have hlen := (padStart_two_digits h (by omega)).1
  have h2 := congrArg (List.take 2) heq
  rw [List.take_left' hlen] at h2
  exact padStart_two_ne_99 h hh h2.symm

/-- C6, amended: the time returned by the parser is empty or made of two decimal
digits, a colon and two decimal digits; the hour and the minute are not checked
against 23 and 59. -/
theorem dueTime_empty_or_two_by_two (env : Env) (raw : Str) :
    (TaskParser.parse env raw).dueTime = [] ∨ IsTwoByTwo (TaskParser.parse env raw).dueTime := by
  rw [parse_eq_weekdayStep, weekdayStep_dueTime]
  unfold afterTime
  cases hm : matchTime (afterRelativeDay env raw).text with
  | none =>
    left
    rw [timeStep_dueTime_none _ hm, afterRelativeDay_dueTime]
  | some m =>
    right
    exact (timeStep_dueTime_shape _ m hm).2

/-! ## The category marker -/

/-- C7, counterexample: in `Pay #bills #2024 taxes` the first marker gives the
category, but the later marker `#2024` is not left in the returned text: the
time rule takes `20` out of it.  And `#!higha`, an input with no marker, gets
the category `a`: the marker appears once the priority token is taken out. -/
theorem later_marker_altered :
    (TaskParser.parse sampleEnv "Pay #bills #2024 taxes".toList).category = "bills".toList ∧
      (TaskParser.parse sampleEnv "Pay #bills #2024 taxes".toList).text = "Pay  #24 taxes".toList ∧
      ¬ List.IsInfix "#2024".toList (TaskParser.parse sampleEnv "Pay #bills #2024 taxes".toList).text ∧
      ¬ HasMarker "#!higha".toList ∧
      (TaskParser.parse sampleEnv "#!higha".toList).category = "a".toList := by
  refine ⟨by decide!, by decide!, by decide!, matchCategory_none _ (by decide!), by decide!⟩

/-- C7, amended: when the text left by the priority rule holds a category
marker, it splits around the leftmost one as `pre ++ "#" ++ w ++ post` with `w`
the longest run of word characters; the parser returns `w` as typed as the
category, and the category rule hands on the trimmed `pre ++ post`, later
markers included, to the rules after it.  When that text holds no marker, the
category is empty and the category rule leaves the text as it is. -/
theorem category_rule (env : Env) (raw : Str) :
    (HasMarker (afterPriority env raw).text →
      ∃ pre w post, (afterPriority env raw).text = pre ++ ('#' :: w) ++ post ∧
        ¬ HasMarker (pre ++ ['#']) ∧ w ≠ [] ∧ (∀ c ∈ w, isWordChar c = true) ∧
        isWordOpt post.head? = false ∧
        (TaskParser.parse env raw).category = w ∧
        (afterCategory env raw).text = trim (pre ++ post)) ∧
    (¬ HasMarker (afterPriority env raw).text →
      (TaskParser.parse env raw).category = [] ∧
        (afterCategory env raw).text = (afterPriority env raw).text) := by
  have hcat0 : (afterPriority env raw).category = [] := by
    unfold afterPriority priorityStep
    split <;> rfl
  constructor
  · intro h
    cases hm : matchCategory (afterPriority env raw).text with
    | none => exact absurd h (matchCategory_none _ hm)
    | some w =>
      obtain ⟨pre, post, h1, h2, h3, h4, h5, h6⟩ := matchCategory_some _ _ hm
      refine ⟨pre, w, post, h1, h2, h3, h4, h5, ?_, ?_⟩
      · rw [parse_category]
        show (categoryStep (afterPriority env raw)).category = w
        simp only [categoryStep, hm]
      · show (categoryStep (afterPriority env raw)).text = trim (pre ++ post)
        simp only [categoryStep, hm, h6]
  · intro h
    have hm : matchCategory (afterPriority env raw).text = none := by
      cases hm : matchCategory (afterPriority env raw).text with
      | none => rfl
      | some w =>
        obtain ⟨pre, post, h1, _, h3, h4, _⟩ := matchCategory_some _ _ hm
        exfalso
        apply h
        cases w with
        | nil => exact absurd rfl h3
        | cons x xs =>
          exact ⟨pre, x, xs ++ post, by simpa using h1, h4 x (List.mem_cons_self _ _)⟩
    constructor
    · rw [parse_category]
      show (categoryStep (afterPriority env raw)).category = []
      simp only [categoryStep, hm, hcat0]
    · show (categoryStep (afterPriority env raw)).text = (afterPriority env raw).text
      simp only [categoryStep, hm]

theorem category_rule_witness :
    HasMarker (afterPriority sampleEnv "Pay #Bills #later today".toList).text ∧
      ∃ pre w post,
        (afterPriority sampleEnv "Pay #Bills #later today".toList).text
          = pre ++ ('#' :: w) ++ post ∧
        ¬ HasMarker (pre ++ ['#']) ∧ w ≠ [] ∧ (∀ c ∈ w, isWordChar c = true) ∧
        isWordOpt post.head? = false ∧
        (TaskParser.parse sampleEnv "Pay #Bills #later today".toList).category = w ∧
        (afterCategory sampleEnv "Pay #Bills #later today".toList).text = trim (pre ++ post) := by
  have ht : (afterPriority sampleEnv "Pay #Bills #later today".toList).text
      = "Pay #Bills #later today".toList := by decide!
  have hm : HasMarker (afterPriority sampleEnv "Pay #Bills #later today".toList).text := by
    rw [ht]
    exact ⟨"Pay ".toList, 'B', "ills #later today".toList, by decide, by decide⟩
  exact ⟨hm, (category_rule sampleEnv "Pay #Bills #later today".toList).1 hm⟩

/-! ## Plain text -/

theorem isWordChar_of_isSpace (c : Char) (h : isSpace c = true) : isWordChar c = false := by
  simp only [isSpace, Bool.or_eq_true, Bool.and_eq_true, decide_eq_true_eq] at h
  simp only [isWordChar, isDigit, Bool.or_eq_false_iff, Bool.and_eq_false_imp, decide_eq_true_eq,
    decide_eq_false_iff_not]
  omega

theorem isWordOpt_getLast_of_spaces (a : Str) (ha : ∀ c ∈ a, isSpace c = true) :
    isWordOpt a.getLast? = false := by
  cases h : a.getLast? with
  | none => rfl
  | some c => exact isWordChar_of_isSpace c (ha c (List.mem_of_getLast?_eq_some h))

theorem isWordOpt_head_of_spaces (b : Str) (hb : ∀ c ∈ b, isSpace c = true) :
    isWordOpt b.head? = false := by
  cases b with
  | nil => rfl
  | cons c cs => exact isWordChar_of_isSpace c (hb c (List.mem_cons_self _ _))

theorem hasMarker_of_trim (raw : Str) (h : HasMarker (trim raw)) : HasMarker raw := by
  obtain ⟨p, x, q, hs, hx⟩ := h
  obtain ⟨a, b, hab, _, _⟩ := trim_decomp raw
  refine ⟨a ++ p, x, q ++ b, ?_, hx⟩
  rw [hab, hs]
  simp

theorem hasWholeWord_of_trim (alts : List Str) (raw : Str) (h : HasWholeWord alts (trim raw)) :
    HasWholeWord alts raw := by
  obtain ⟨pre, m, post, hs, hm, hp, hq⟩ := h
  obtain ⟨a, b, hab, ha, hb⟩ := trim_decomp raw
  refine ⟨a ++ pre, m, post ++ b, ?_, hm, ?_, ?_⟩
  · rw [hab, hs]
    simp
  · rw [List.getLast?_append]
    cases hl : pre.getLast? with
    | none => simpa using isWordOpt_getLast_of_spaces a ha
    | some c => simpa [hl] using hp
  · rw [List.head?_append]
    cases hh : post.head? with
    | none => simpa using isWordOpt_head_of_spaces b hb
    | some c => simpa [hh] using hq

theorem matchTime_none_of_no_digit (s : Str) (h : ∀ c ∈ s, isDigit c = false) :
    matchTime s = none := by
  induction s with
  | nil => rfl
  | cons c cs ih =>
    have hc : isDigit c = false := h c (List.mem_cons_self _ _)
    have hat : matchTimeAt (c :: cs) = none := by
      simp [matchTimeAt, takeHours, hc]
    unfold matchTime
    rw [hat]
    exact ih fun d hd => h d (List.mem_cons_of_mem _ hd)

theorem mem_of_mem_trim (raw : Str) (c : Char) (h : c ∈ trim raw) : c ∈ raw := by
  obtain ⟨a, b, hab, _, _⟩ := trim_decomp raw
  rw [hab]
  simp [h]

theorem testWord_eq_false (w s : Str) (hl : LetterWords [w]) (h : ¬ HasWholeWord [w] s) :
    testWord w s = false := by
  simp [testWord, findWord_eq_none_of_not [w] hl s h]

theorem matchCategory_eq_none (s : Str) (h : ¬ HasMarker s) : matchCategory s = none := by
  cases hm : matchCategory s with
  | none => rfl
  | some w =>
    obtain ⟨pre, post, h1, _, h3, h4, _⟩ := matchCategory_some _ _ hm
    exfalso
    apply h
    cases w with
    | nil => exact absurd rfl h3
    | cons x xs => exact ⟨pre, x, xs ++ post, by simpa using h1, h4 x (List.mem_cons_self _ _)⟩

theorem matchPriority_eq_none (s : Str) (h : ¬ HasPriorityToken s) : matchPriority s = none := by
  cases hm : matchPriority s with
  | none => rfl
  | some w =>
    obtain ⟨pre, post, ht, _⟩ := matchPriority_some _ _ hm
    exact absurd ⟨pre, w, post, ht⟩ h

/-- C11: the parser is a total function, and on an input with no priority token,
no category marker, no ASCII digit and no whole-word `today`, `tomorrow` or
weekday name it returns the trimmed input as text, the configured default
priority, and an empty category, due date and due time. -/
theorem parse_plain_text (env : Env) (raw : Str) :
    (∃ r, TaskParser.parse env raw = r) ∧
    (¬ HasPriorityToken raw → ¬ HasMarker raw → (∀ c ∈ raw, isDigit c = false) →
      ¬ HasWholeWord ["today".toList] raw → ¬ HasWholeWord ["tomorrow".toList] raw →
      ¬ HasWholeWord weekdayWords raw →
      TaskParser.parse env raw =
        { text := trim raw, priority := env.defaultPriority, category := [], dueDate := [],
          dueTime := [] }) := by
  refine ⟨⟨_, rfl⟩, ?_⟩
  intro hp hm hd ht1 ht2 hw
  unfold TaskParser.parse initFields
  rw [priorityStep_mk_none (trim raw) _ _ _ _
    (matchPriority_eq_none _ fun h => hp (hasPriorityToken_of_trim raw h))]
  rw [categoryStep_mk_none (trim raw) _ _ _ _
    (matchCategory_eq_none _ fun h => hm (hasMarker_of_trim raw h))]
  rw [relativeDayStep_mk_none env (trim raw) _ _ _ _
    (testWord_eq_false _ _ letterWords_today fun h => ht1 (hasWholeWord_of_trim _ raw h))
    (testWord_eq_false _ _ letterWords_tomorrow fun h => ht2 (hasWholeWord_of_trim _ raw h))]
  rw [timeStep_mk_none (trim raw) _ _ _ _
    (matchTime_none_of_no_digit _ fun c hc => hd c (mem_of_mem_trim raw c hc))]
  rw [weekdayStep_mk_none env (trim raw) _ _ _ _
    (findWord_eq_none_of_not _ letterWords_weekdayWords _
      fun h => hw (hasWholeWord_of_trim _ raw h))]

theorem parse_plain_text_witness :
    ¬ HasPriorityToken "  Water the plants ".toList ∧ ¬ HasMarker "  Water the plants ".toList ∧
      (∀ c ∈ "  Water the plants ".toList, isDigit c = false) ∧
      ¬ HasWholeWord ["today".toList] "  Water the plants ".toList ∧
      ¬ HasWholeWord ["tomorrow".toList] "  Water the plants ".toList ∧
      ¬ HasWholeWord weekdayWords "  Water the plants ".toList ∧
      TaskParser.parse sampleEnv "  Water the plants ".toList =
        { text := "Water the plants".toList, priority := sampleEnv.defaultPriority,
          category := [], dueDate := [], dueTime := [] } := by
  have h1 : ¬ HasPriorityToken "  Water the plants ".toList := matchPriority_none _ (by decide!)
  have h2 : ¬ HasMarker "  Water the plants ".toList := matchCategory_none _ (by decide!)
  have h3 : ∀ c ∈ "  Water the plants ".toList, isDigit c = false := by decide
  have h4 : ¬ HasWholeWord ["today".toList] "  Water the plants ".toList :=
    not_hasWholeWord_of_findWord_none _ letterWords_today _ (by decide!)
  have h5 : ¬ HasWholeWord ["tomorrow".toList] "  Water the plants ".toList :=
    not_hasWholeWord_of_findWord_none _ letterWords_tomorrow _ (by decide!)
  have h6 : ¬ HasWholeWord weekdayWords "  Water the plants ".toList :=
    not_hasWholeWord_of_findWord_none _ letterWords_weekdayWords _ (by decide!)
  have h := (parse_plain_text sampleEnv "  Water the plants ".toList).2 h1 h2 h3 h4 h5 h6
  rw [show trim "  Water the plants ".toList = "Water the plants".toList from by decide!] at h
  exact ⟨h1, h2, h3, h4, h5, h6, h⟩

/-! ## The filter -/

theorem filter_stage (c : Prop) [Decidable c] (p : Task → Bool) (l : List Task) :
    (if c then l.filter p else l) = l.filter fun t => decide (c → p t = true) := by
  by_cases hc : c
  · simp [hc]
  · simp [hc]

theorem filter_view (env : Env) (host : Host) (view : Str) (l : List Task) :
    (if view = "today".toList then l.filter (TaskFilter.isToday env)
      else if view = "week".toList then l.filter (TaskFilter.isThisWeek env host)
      else if view = "overdue".toList then l.filter (TaskFilter.isOverdue env host)
      else if view = "completed".toList then l.filter fun t => t.done
      else l.filter fun t => !t.done)
    = l.filter fun t => decide (ViewHolds env host view t) := by
  unfold ViewHolds
  split_ifs <;> simp_all

/-- The four filter stages as one test on a task. -/
theorem apply_eq_sort_filter (env : Env) (host : Host) (f : Filters) (tasks : List Task) :
    TaskFilter.apply env host f tasks
      = sortByOrder (tasks.filter fun t => decide (Shown env host f t)) := by
  unfold TaskFilter.apply
  simp only []
  rw [filter_view, filter_stage, filter_stage, filter_stage, List.filter_filter,
    List.filter_filter, List.filter_filter]
  congr 1
  apply List.filter_congr
  intro t _
  rw [Bool.eq_iff_iff]
  simp only [Bool.and_eq_true, decide_eq_true_eq]
  unfold Shown
  tauto

theorem sortByOrder_perm (l : List Task) : List.Perm (sortByOrder l) l :=
  List.perm_insertionSort _ l

theorem sortByOrder_sorted (l : List Task) :
    List.Sorted (fun a b : Task => a.order ≤ b.order) (sortByOrder l) := by
  haveI : IsTotal Task (fun a b => a.order ≤ b.order) := ⟨fun a b => le_total a.order b.order⟩
  haveI : IsTrans Task (fun a b => a.order ≤ b.order) :=
    ⟨fun a b c h1 h2 => le_trans h1 h2⟩
  exact List.sorted_insertionSort _ l

theorem apply_perm_filter (env : Env) (host : Host) (f : Filters) (tasks : List Task) :
    List.Perm (TaskFilter.apply env host f tasks)
      (tasks.filter fun t => decide (Shown env host f t)) := by
  rw [apply_eq_sort_filter]
  exact sortByOrder_perm _

theorem apply_orders_nodup (env : Env) (host : Host) (f : Filters) (tasks : List Task)
    (h : (tasks.map fun t => t.order).Nodup) :
    ((TaskFilter.apply env host f tasks).map fun t => t.order).Nodup := by
  have h1 : ((tasks.filter fun t => decide (Shown env host f t)).map fun t => t.order).Nodup :=
    List.Nodup.sublist ((List.filter_sublist tasks).map _) h
  exact ((apply_perm_filter env host f tasks).map _).nodup_iff.mpr h1

theorem apply_strictly_sorted (env : Env) (host : Host) (f : Filters) (tasks : List Task)
    (h : (tasks.map fun t => t.order).Nodup) :
    List.Pairwise (fun a b : Task => a.order < b.order) (TaskFilter.apply env host f tasks) := by
  have h1 := apply_orders_nodup env host f tasks h
  have h2 : List.Pairwise (fun a b : Task => a.order ≤ b.order)
      (TaskFilter.apply env host f tasks) := by
    rw [apply_eq_sort_filter]
    exact sortByOrder_sorted _
  have h3 : List.Pairwise (fun a b : Task => a.order ≠ b.order)
      (TaskFilter.apply env host f tasks) := by
    unfold List.Nodup at h1
    rwa [List.pairwise_map] at h1
  exact (h2.and h3).imp fun hab => lt_of_le_of_ne hab.1 hab.2

/-- C12: the tasks returned by `TaskFilter.apply` are the input tasks that pass
the view predicate and the non-empty category, priority and search filters,
each as many times as it stands in the input: none added, doubled or dropped. -/
theorem apply_returns_shown (env : Env) (host : Host) (f : Filters) (tasks : List Task) :
    List.Perm (TaskFilter.apply env host f tasks)
        (tasks.filter fun t => decide (Shown env host f t)) ∧
      ∀ t, t ∈ TaskFilter.apply env host f tasks ↔ t ∈ tasks ∧ Shown env host f t := by
  refine ⟨apply_perm_filter env host f tasks, ?_⟩
  intro t
  rw [(apply_perm_filter env host f tasks).mem_iff]
  simp

/-- C13: on a task list with pairwise distinct `order` values the output of
`TaskFilter.apply` is strictly ascending in `order`, and every permutation of
the input gives the same output sequence. -/
theorem apply_sorted_and_stable (env : Env) (host : Host) (f : Filters) (tasks : List Task)
    (h : (tasks.map fun t => t.order).Nodup) :
    List.Pairwise (fun a b : Task => a.order < b.order) (TaskFilter.apply env host f tasks) ∧
      ∀ tasks' : List Task, List.Perm tasks' tasks →
        TaskFilter.apply env host f tasks' = TaskFilter.apply env host f tasks := by
  refine ⟨apply_strictly_sorted env host f tasks h, ?_⟩
  intro tasks' hp
  have h' : (tasks'.map fun t => t.order).Nodup := (hp.map _).nodup_iff.mpr h
  haveI : IsAntisymm Task (fun a b => a.order < b.order) :=
    ⟨fun a b h1 h2 => absurd h1 (not_lt.mpr (le_of_lt h2))⟩
  apply List.eq_of_perm_of_sorted (r := fun a b : Task => a.order < b.order)
  · exact (apply_perm_filter env host f tasks').trans
      ((hp.filter _).trans (apply_perm_filter env host f tasks).symm)
  · exact apply_strictly_sorted env host f tasks' h'
  · exact apply_strictly_sorted env host f tasks h

theorem apply_sorted_and_stable_witness :
    ([sampleTask 1 2 false, sampleTask 2 0 false, sampleTask 3 1 true].map
        fun t => t.order).Nodup ∧
      TaskFilter.apply sampleEnv sampleHost defaultFilters
          [sampleTask 1 2 false, sampleTask 2 0 false, sampleTask 3 1 true]
        = [sampleTask 2 0 false, sampleTask 1 2 false] ∧
      List.Pairwise (fun a b : Task => a.order < b.order)
        (TaskFilter.apply sampleEnv sampleHost defaultFilters
          [sampleTask 1 2 false, sampleTask 2 0 false, sampleTask 3 1 true]) ∧
      ∀ tasks' : List Task,
        List.Perm tasks' [sampleTask 1 2 false, sampleTask 2 0 false, sampleTask 3 1 true] →
        TaskFilter.apply sampleEnv sampleHost defaultFilters tasks'
          = TaskFilter.apply sampleEnv sampleHost defaultFilters
              [sampleTask 1 2 false, sampleTask 2 0 false, sampleTask 3 1 true] :=
  ⟨by decide, by decide!,
    apply_sorted_and_stable sampleEnv sampleHost defaultFilters
      [sampleTask 1 2 false, sampleTask 2 0 false, sampleTask 3 1 true] (by decide)⟩

/-- C14: with the clock and the filter specification fixed, applying
`TaskFilter.apply` to its own output returns that output unchanged. -/
theorem apply_idempotent (env : Env) (host : Host) (f : Filters) (tasks : List Task) :
    TaskFilter.apply env host f (TaskFilter.apply env host f tasks)
      = TaskFilter.apply env host f tasks := by
  have hmem : ∀ t ∈ TaskFilter.apply env host f tasks,
      decide (Shown env host f t) = true := by
    intro t ht
    rw [(apply_perm_filter env host f tasks).mem_iff] at ht
    exact (List.mem_filter.mp ht).2
  rw [apply_eq_sort_filter env host f (TaskFilter.apply env host f tasks),
    List.filter_eq_self.mpr hmem]
  unfold sortByOrder
  apply List.Sorted.insertionSort_eq
  rw [apply_eq_sort_filter]
  exact sortByOrder_sorted _

/-! ## Reordering -/

theorem indexOfId_ge (x : Int) (l : List Int) : -1 ≤ indexOfId x l := by
  induction l with
  | nil => simp [indexOfId]
  | cons y ys ih =>
    unfold indexOfId
    simp only []
    split_ifs <;> omega

theorem indexOfId_of_not_mem (x : Int) (l : List Int) (h : x ∉ l) : indexOfId x l = -1 := by
  induction l with
  | nil => rfl
  | cons y ys ih =>
    have h1 : y ≠ x := fun e => h (e ▸ List.mem_cons_self _ _)
    have h2 : indexOfId x ys = -1 := ih fun hm => h (List.mem_cons_of_mem _ hm)
    simp [indexOfId, h1, h2]

/-- The index returned for an id is the position of its first occurrence. -/
theorem indexOfId_first (x : Int) (l : List Int) (k : Nat) (hk : l[k]? = some x)
    (hfirst : ∀ j, j < k → l[j]? ≠ some x) : indexOfId x l = (k : Int) := by
  induction l generalizing k with
  | nil => simp at hk
  | cons y ys ih =>
    cases k with
    | zero =>
      simp only [List.getElem?_cons_zero, Option.some.injEq] at hk
      simp [indexOfId, hk]
    | succ n =>
      have h0 : y ≠ x := by
        intro e
        exact hfirst 0 (Nat.succ_pos n) (by simp [e])
      have hrec : indexOfId x ys = (n : Int) := by
        apply ih n (by simpa using hk)
        intro j hj
        have := hfirst (j + 1) (Nat.succ_lt_succ hj)
        simpa using this
      unfold indexOfId
      simp only [h0, if_false, hrec]
      rw [if_neg (by omega)]
      push_cast
      ring

theorem indexOfId_of_mem (x : Int) (l : List Int) (h : x ∈ l) :
    indexOfId x l = (List.indexOf x l : Int) := by
  induction l with
  | nil => simp at h
  | cons y ys ih =>
    by_cases e : y = x
    · simp [indexOfId, e]
    · have hm : x ∈ ys := by
        rcases List.mem_cons.mp h with h1 | h1
        · exact absurd h1.symm e
        · exact h1
      have h1 := ih hm
      unfold indexOfId
      simp only [e, if_false, h1]
      rw [if_neg (by omega), List.indexOf_cons_ne _ e]
      push_cast
      ring

theorem map_indexOfId_self (l : List Int) (h : l.Nodup) :
    l.map (fun x => indexOfId x l) = (List.range l.length).map Int.ofNat := by
  apply List.ext_getElem
  · simp
  · intro i h1 h2
    simp only [List.getElem_map, List.getElem_range]
    have hi : i < l.length := by simpa using h1
    rw [indexOfId_of_mem _ _ (List.getElem_mem hi), List.indexOf_getElem h i hi]
    rfl

theorem updateTaskOrder_tasks (ids : List Int) (st : State) :
    (DragDropHandler.updateTaskOrder ids st).tasks
      = st.tasks.map fun task =>
          if indexOfId task.id ids ≠ -1 then { task with order := indexOfId task.id ids }
          else task := rfl

/-- C15, counterexample: three tasks with orders 0, 1, 2, the first one done and
so hidden in the default view; the view shows the ids 2, 3, and committing them
in the order 3, 2 leaves the orders 0, 1, 0. -/
theorem reorder_in_filtered_view_repeats_order :
    (TaskFilter.apply sampleEnv sampleHost defaultFilters
        [sampleTask 1 0 true, sampleTask 2 1 false, sampleTask 3 2 false]).map (fun t => t.id)
        = [2, 3] ∧
      (DragDropHandler.updateTaskOrder [3, 2]
        (sampleState [sampleTask 1 0 true, sampleTask 2 1 false, sampleTask 3 2 false])).tasks.map
          (fun t => t.order) = [0, 1, 0] ∧
      ¬ ((DragDropHandler.updateTaskOrder [3, 2]
        (sampleState [sampleTask 1 0 true, sampleTask 2 1 false, sampleTask 3 2 false])).tasks.map
          (fun t => t.order)).Nodup := by
  refine ⟨by decide!, by decide!, by decide!⟩

/-- C15, amended: when the ids of the collection are pairwise distinct and the
committed list holds each of them exactly once, the `order` values after the
reorder are pairwise distinct and form a permutation of 0..n-1. -/
theorem reorder_full_list_permutation (ids : List Int) (st : State)
    (hnd : (st.tasks.map fun t => t.id).Nodup)
    (hperm : List.Perm ids (st.tasks.map fun t => t.id)) :
    List.Perm ((DragDropHandler.updateTaskOrder ids st).tasks.map fun t => t.order)
        ((List.range st.tasks.length).map Int.ofNat) ∧
      ((DragDropHandler.updateTaskOrder ids st).tasks.map fun t => t.order).Nodup := by
  have hids : ids.Nodup := hperm.nodup_iff.mpr hnd
  have hlen : ids.length = st.tasks.length := by simpa using hperm.length_eq
  have horders : (DragDropHandler.updateTaskOrder ids st).tasks.map (fun t => t.order)
      = (st.tasks.map fun t => t.id).map fun x => indexOfId x ids := by
    rw [updateTaskOrder_tasks, List.map_map, List.map_map]
    apply List.map_congr_left
    intro t ht
    have hmem : t.id ∈ ids := hperm.mem_iff.mpr (List.mem_map_of_mem (fun t => t.id) ht)
    have hne : indexOfId t.id ids ≠ -1 := by
      rw [indexOfId_of_mem _ _ hmem]
      omega
    simp [hne]
  have hp : List.Perm ((DragDropHandler.updateTaskOrder ids st).tasks.map fun t => t.order)
      ((List.range st.tasks.length).map Int.ofNat) := by
    rw [horders, ← hlen, ← map_indexOfId_self ids hids]
    exact (hperm.map _).symm
  refine ⟨hp, hp.nodup_iff.mpr ?_⟩
  exact (List.nodup_range _).map Int.ofNat_injective

theorem reorder_full_list_permutation_witness :
    ((sampleState [sampleTask 1 0 true, sampleTask 2 1 false, sampleTask 3 2 false]).tasks.map
        fun t => t.id).Nodup ∧
      List.Perm [3, 1, 2]
        ((sampleState [sampleTask 1 0 true, sampleTask 2 1 false, sampleTask 3 2 false]).tasks.map
          fun t => t.id) ∧
      List.Perm
        ((DragDropHandler.updateTaskOrder [3, 1, 2]
          (sampleState [sampleTask 1 0 true, sampleTask 2 1 false, sampleTask 3 2 false])).tasks.map
            fun t => t.order)
        ((List.range
          (sampleState [sampleTask 1 0 true, sampleTask 2 1 false, sampleTask 3 2 false]).tasks.length).map
            Int.ofNat) ∧
      ((DragDropHandler.updateTaskOrder [3, 1, 2]
        (sampleState [sampleTask 1 0 true, sampleTask 2 1 false, sampleTask 3 2 false])).tasks.map
          fun t => t.order).Nodup :=
  ⟨by decide, by decide,
    reorder_full_list_permutation [3, 1, 2]
      (sampleState [sampleTask 1 0 true, sampleTask 2 1 false, sampleTask 3 2 false])
      (by decide) (by decide)⟩

/-- C16: the reorder keeps the length and the positions of the list, gives a task
whose id occurs in the committed list the position of the first occurrence of
its id as `order`, changes no other field of it, leaves a task whose id is
absent as it is, and touches nothing else in the state. -/
theorem reorder_sets_order_only (ids : List Int) (st : State) :
    (DragDropHandler.updateTaskOrder ids st).tasks.length = st.tasks.length ∧
      (DragDropHandler.updateTaskOrder ids st).filters = st.filters ∧
      (DragDropHandler.updateTaskOrder ids st).completedToday = st.completedToday ∧
      (DragDropHandler.updateTaskOrder ids st).deletedTask = st.deletedTask ∧
      ∀ (i : Nat) (t : Task), st.tasks[i]? = some t →
        (t.id ∉ ids → (DragDropHandler.updateTaskOrder ids st).tasks[i]? = some t) ∧
        (∀ k : Nat, ids[k]? = some t.id → (∀ j, j < k → ids[j]? ≠ some t.id) →
          (DragDropHandler.updateTaskOrder ids st).tasks[i]?
            = some { t with order := (k : Int) }) := by
  refine ⟨by simp [updateTaskOrder_tasks], rfl, rfl, rfl, ?_⟩
  intro i t hi
  have hget : (DragDropHandler.updateTaskOrder ids st).tasks[i]?
      = some (if indexOfId t.id ids ≠ -1 then { t with order := indexOfId t.id ids } else t) := by
    rw [updateTaskOrder_tasks, List.getElem?_map, hi]
    rfl
  constructor
  · intro hn
    rw [hget, indexOfId_of_not_mem _ _ hn]
    simp
  · intro k hk hfirst
    rw [hget, indexOfId_first _ _ k hk hfirst]
    have : ((k : Int) ≠ -1) := by omega
    simp [this]

/-! ## Adding a task -/

theorem renumberFrom_getElem? (start : Nat) (l : List Task) (i : Nat) :
    (renumberFrom start l)[i]? = (l[i]?).map fun t => { t with order := ((start + i : Nat) : Int) } := by
  induction l generalizing start i with
  | nil => simp [renumberFrom]
  | cons t ts ih =>
    cases i with
    | zero => simp [renumberFrom]
    | succ n =>
      simp only [renumberFrom, List.getElem?_cons_succ]
      rw [ih (start + 1) n]
      have : start + 1 + n = start + (n + 1) := by omega
      rw [this]

theorem renumberFrom_length (start : Nat) (l : List Task) :
    (renumberFrom start l).length = l.length := by
  induction l generalizing start with
  | nil => rfl
  | cons t ts ih => simp [renumberFrom, ih]

theorem renumberFrom_orders (start : Nat) (l : List Task) :
    (renumberFrom start l).map (fun t => t.order)
      = (List.range' start l.length).map Int.ofNat := by
  induction l generalizing start with
  | nil => rfl
  | cons t ts ih => simp [renumberFrom, ih, List.range']

/-- C17: `State.addTask` yields one task more; position `i` of the new list holds
the task at position `i` of the old list with the new task put in front, with
`order` set to `i` and no other field changed, so the new task comes first, the
previous tasks follow in their previous order, and the orders are 0..n. -/
theorem addTask_puts_first_and_renumbers (task : Task) (st : State) :
    (State.addTask task st).tasks.length = st.tasks.length + 1 ∧
      (∀ i : Nat, (State.addTask task st).tasks[i]?
        = ((task :: st.tasks)[i]?).map fun t => { t with order := (i : Int) }) ∧
      (State.addTask task st).tasks.head? = some { task with order := 0 } ∧
      (State.addTask task st).tasks.map (fun t => t.order)
        = (List.range (st.tasks.length + 1)).map Int.ofNat ∧
      (State.addTask task st).filters = st.filters ∧
      (State.addTask task st).completedToday = st.completedToday ∧
      (State.addTask task st).deletedTask = st.deletedTask := by
  have ht : (State.addTask task st).tasks = renumberFrom 0 (task :: st.tasks) := rfl
  refine ⟨?_, ?_, ?_, ?_, rfl, rfl, rfl⟩
  · rw [ht, renumberFrom_length]
    simp
  · intro i
    rw [ht, renumberFrom_getElem?]
    simp
  · rw [ht]
    rfl
  · rw [ht, renumberFrom_orders, List.range_eq_range']
    simp

/-! ## Toggling -/

theorem getTask_of_absent (id : Int) (st : State) (h : ∀ t ∈ st.tasks, t.id ≠ id) :
    State.getTask id st = none := by
  unfold State.getTask
  rw [List.find?_eq_none]
  intro t ht
  simpa using h t ht

theorem find?_first (id : Int) (pre : List Task) (t : Task) (post : List Task)
    (hid : t.id = id) (hpre : ∀ u ∈ pre, u.id ≠ id) :
    (pre ++ t :: post).find? (fun u => decide (u.id = id)) = some t := by
  induction pre with
  | nil => simp [hid]
  | cons u us ih =>
    have hu : u.id ≠ id := hpre u (List.mem_cons_self _ _)
    simp only [List.cons_append, List.find?_cons, hu, decide_False]
    exact ih fun v hv => hpre v (List.mem_cons_of_mem _ hv)

theorem updateFirst_first (id : Int) (f : Task → Task) (pre : List Task) (t : Task)
    (post : List Task) (hid : t.id = id) (hpre : ∀ u ∈ pre, u.id ≠ id) :
    updateFirst id f (pre ++ t :: post) = pre ++ f t :: post := by
  induction pre with
  | nil => simp [updateFirst, hid]
  | cons u us ih =>
    have hu : u.id ≠ id := hpre u (List.mem_cons_self _ _)
    show updateFirst id f (u :: (us ++ t :: post)) = u :: (us ++ f t :: post)
    rw [updateFirst, if_neg hu, ih fun v hv => hpre v (List.mem_cons_of_mem _ hv)]

/-- C18, counterexample: two tasks carry the id 1; toggling that id flips the
first of them and leaves the second, which is in the collection too, as it
was. -/
theorem toggle_skips_later_task_with_same_id :
    sampleTask 1 1 false ∈ (sampleState [sampleTask 1 0 false, sampleTask 1 1 false]).tasks ∧
      (TaskActions.toggle sampleEnv (sampleTask 1 1 false).id
        (sampleState [sampleTask 1 0 false, sampleTask 1 1 false])).tasks
        = [{ sampleTask 1 0 false with
              done := true, completedAt := some (toISOString sampleEnv.now) },
            sampleTask 1 1 false] := by
  refine ⟨by decide, by decide!⟩

/-- C18, amended: toggling the id of a task that is the first in the collection
to carry it (every task, when ids are pairwise distinct) flips `done` of that
task, sets `completedAt` to the current timestamp when `done` becomes true and
to null when it becomes false, and changes no other field of it and no other
task; toggling an id that no task carries changes nothing. -/
theorem toggle_first_task_with_id (env : Env) (id : Int) (st : State) :
    ((∀ t ∈ st.tasks, t.id ≠ id) → TaskActions.toggle env id st = st) ∧
    (∀ (pre : List Task) (t : Task) (post : List Task),
      st.tasks = pre ++ t :: post → t.id = id → (∀ u ∈ pre, u.id ≠ id) →
      (TaskActions.toggle env id st).tasks
          = pre ++ { t with
              done := !t.done,
              completedAt := if t.done = false then some (toISOString env.now) else none }
            :: post ∧
        (TaskActions.toggle env id st).filters = st.filters ∧
        (TaskActions.toggle env id st).deletedTask = st.deletedTask) := by
  constructor
  · intro h
    unfold TaskActions.toggle
    rw [getTask_of_absent id st h]
  · intro pre t post hs hid hpre
    have hget : State.getTask id st = some t := by
      unfold State.getTask
      rw [hs]
      exact find?_first id pre t post hid hpre
    unfold TaskActions.toggle
    rw [hget]
    simp only []
    rw [hs, updateFirst_first id _ pre t post hid hpre]
    cases hd : t.done <;> simp

theorem toggle_first_task_with_id_witness :
    (sampleState [sampleTask 1 0 false, sampleTask 2 1 true]).tasks
        = [sampleTask 1 0 false] ++ sampleTask 2 1 true :: [] ∧
      (TaskActions.toggle sampleEnv 2
        (sampleState [sampleTask 1 0 false, sampleTask 2 1 true])).tasks
        = [sampleTask 1 0 false] ++ { sampleTask 2 1 true with
              done := !(sampleTask 2 1 true).done,
              completedAt := if (sampleTask 2 1 true).done = false
                then some (toISOString sampleEnv.now) else none } :: [] ∧
      TaskActions.toggle sampleEnv 7 (sampleState [sampleTask 1 0 false, sampleTask 2 1 true])
        = sampleState [sampleTask 1 0 false, sampleTask 2 1 true] :=
  ⟨rfl,
    ((toggle_first_task_with_id sampleEnv 2
      (sampleState [sampleTask 1 0 false, sampleTask 2 1 true])).2
        [sampleTask 1 0 false] (sampleTask 2 1 true) [] rfl rfl (by decide)).1,
    (toggle_first_task_with_id sampleEnv 7
      (sampleState [sampleTask 1 0 false, sampleTask 2 1 true])).1 (by decide)⟩

/-! ## Deleting and undoing -/

theorem findIndex_first (id : Int) (pre : List Task) (t : Task) (post : List Task)
    (hid : t.id = id) (hpre : ∀ u ∈ pre, u.id ≠ id) :
    findIndex (fun u => decide (u.id = id)) (pre ++ t :: post) = (pre.length : Int) := by
  induction pre with
  | nil => simp [findIndex, hid]
  | cons u us ih =>
    have hu : u.id ≠ id := hpre u (List.mem_cons_self _ _)
    have h := ih fun v hv => hpre v (List.mem_cons_of_mem _ hv)
    show findIndex (fun u => decide (u.id = id)) (u :: (us ++ t :: post))
      = ((us.length + 1 : Nat) : Int)
    rw [findIndex]
    simp only [hu, decide_False, Bool.false_eq_true, if_false, h]
    rw [if_neg (by omega)]
    push_cast
    ring

theorem filter_removes_one (id : Int) (pre : List Task) (t : Task) (post : List Task)
    (hid : t.id = id) (hpre : ∀ u ∈ pre, u.id ≠ id) (hpost : ∀ u ∈ post, u.id ≠ id) :
    (pre ++ t :: post).filter (fun u => decide (u.id ≠ id)) = pre ++ post := by
  rw [List.filter_append, List.filter_cons]
  have h1 : pre.filter (fun u => decide (u.id ≠ id)) = pre :=
    List.filter_eq_self.mpr fun u hu => by simpa using hpre u hu
  have h2 : post.filter (fun u => decide (u.id ≠ id)) = post :=
    List.filter_eq_self.mpr fun u hu => by simpa using hpost u hu
  rw [h1, h2]
  simp [hid]

theorem splice_at_length (pre : List Task) (t : Task) (post : List Task) :
    splice (pre.length : Int) t (pre ++ post) = pre ++ t :: post := by
  unfold splice
  simp only []
  rw [if_neg (by omega)]
  have h : (min (pre.length : Int) ((pre ++ post).length : Int)).toNat = pre.length := by
    rw [List.length_append]
    push_cast
    rw [min_eq_left (by omega)]
    simp
  rw [h]
  simp

theorem split_at_id (tasks : List Task) (id : Int)
    (hnd : (tasks.map fun t => t.id).Nodup) (hmem : id ∈ tasks.map fun t => t.id) :
    ∃ pre t post, tasks = pre ++ t :: post ∧ t.id = id ∧
      (∀ u ∈ pre, u.id ≠ id) ∧ (∀ u ∈ post, u.id ≠ id) := by
  obtain ⟨t, ht, hid⟩ := List.mem_map.mp hmem
  obtain ⟨pre, post, rfl⟩ := List.append_of_mem ht
  refine ⟨pre, t, post, rfl, hid, ?_, ?_⟩
  · intro u hu e
    rw [List.map_append, List.map_cons] at hnd
    have := (List.nodup_append.mp hnd).2.2
    exact this (List.mem_map_of_mem (fun t => t.id) hu) (by simp [e, hid])
  · intro u hu e
    rw [List.map_append, List.map_cons] at hnd
    have h1 := (List.nodup_append.mp hnd).2.1
    have h2 := (List.nodup_cons.mp h1).1
    apply h2
    rw [hid, ← e]
    exact List.mem_map_of_mem (fun t => t.id) hu

/-- C19: in a collection with pairwise distinct ids, deleting the id of one of
its tasks removes that task alone, the others keeping their order, and records
a copy of it with its list index; undoing right away puts it back at that
index, so the task list is the one before the delete. -/
theorem delete_then_undo_restores (id : Int) (st : State)
    (hnd : (st.tasks.map fun t => t.id).Nodup) (hmem : id ∈ st.tasks.map fun t => t.id) :
    ∃ pre t post, st.tasks = pre ++ t :: post ∧ t.id = id ∧
      (TaskActions.delete id st).tasks = pre ++ post ∧
      (TaskActions.delete id st).deletedTask = some { task := t, index := (pre.length : Int) } ∧
      undoDelete (TaskActions.delete id st) = some { st with deletedTask := none } ∧
      (undoDelete (TaskActions.delete id st)).map (fun s => s.tasks) = some st.tasks := by
  obtain ⟨pre, t, post, hs, hid, hpre, hpost⟩ := split_at_id st.tasks id hnd hmem
  have hget : State.getTask id st = some t := by
    unfold State.getTask
    rw [hs]
    exact find?_first id pre t post hid hpre
  have hdel : TaskActions.delete id st
      = { st with tasks := pre ++ post,
                  deletedTask := some { task := t, index := (pre.length : Int) } } := by
    unfold TaskActions.delete
    rw [hget]
    simp only [State.removeTask]
    rw [hs, findIndex_first id pre t post hid hpre, filter_removes_one id pre t post hid hpre hpost]
  have hundo : undoDelete (TaskActions.delete id st) = some { st with deletedTask := none } := by
    rw [hdel]
    simp only [undoDelete, splice_at_length, ← hs]
  refine ⟨pre, t, post, hs, hid, ?_, ?_, hundo, ?_⟩
  · rw [hdel]
  · rw [hdel]
  · rw [hundo]
    rfl

theorem delete_then_undo_restores_witness :
    ((sampleState [sampleTask 1 0 false, sampleTask 2 1 true, sampleTask 3 2 false]).tasks.map
        fun t => t.id).Nodup ∧
      (2 : Int) ∈
        (sampleState [sampleTask 1 0 false, sampleTask 2 1 true, sampleTask 3 2 false]).tasks.map
          (fun t => t.id) ∧
      (TaskActions.delete 2
        (sampleState [sampleTask 1 0 false, sampleTask 2 1 true, sampleTask 3 2 false])).tasks
        = [sampleTask 1 0 false, sampleTask 3 2 false] ∧
      ∃ pre t post,
        (sampleState [sampleTask 1 0 false, sampleTask 2 1 true, sampleTask 3 2 false]).tasks
          = pre ++ t :: post ∧ t.id = 2 ∧
        (TaskActions.delete 2
          (sampleState [sampleTask 1 0 false, sampleTask 2 1 true, sampleTask 3 2 false])).tasks
          = pre ++ post ∧
        (TaskActions.delete 2
          (sampleState [sampleTask 1 0 false, sampleTask 2 1 true, sampleTask 3 2 false])).deletedTask
          = some { task := t, index := (pre.length : Int) } ∧
        undoDelete (TaskActions.delete 2
          (sampleState [sampleTask 1 0 false, sampleTask 2 1 true, sampleTask 3 2 false]))
          = some { sampleState [sampleTask 1 0 false, sampleTask 2 1 true, sampleTask 3 2 false]
                    with deletedTask := none } ∧
        (undoDelete (TaskActions.delete 2
          (sampleState [sampleTask 1 0 false, sampleTask 2 1 true, sampleTask 3 2 false]))).map
            (fun s => s.tasks)
          = some
            (sampleState [sampleTask 1 0 false, sampleTask 2 1 true, sampleTask 3 2 false]).tasks :=
  ⟨by decide, by decide, by decide!,
    delete_then_undo_restores 2
      (sampleState [sampleTask 1 0 false, sampleTask 2 1 true, sampleTask 3 2 false])
      (by decide) (by decide)⟩

end DailyDevTasks
